import Mathlib

/-!
# Verification of git-vscode-stats parsing/aggregation/export routines

This development shallowly embeds the pure computational content of the
git-vscode-stats extension (an editor panel that shells out to git, parses its
line-oriented output, aggregates counts and renders tables/charts) and settles
the specification claims about it.

Strings are modelled as `List Char`.  JavaScript `Record<string, number>`
objects are modelled as association lists `List (List Char × Int)` that keep
JS object insertion-order semantics (assignment to an existing key updates it
in place, assignment to a fresh key appends).  JS numbers appearing as counts
are modelled as `Int`.

The file is organised as: all definitions first, then all theorems.
-/

namespace GitStats

/-- Convert a Lean string literal to the `List Char` representation used
throughout this development. -/
def chars (s : String) : List Char := s.data

/-- JS whitespace class (`\s`, and the characters trimmed by
`String.prototype.trim`): space, tab, newline, carriage return, vertical tab,
form feed. -/
def jsWS (c : Char) : Bool :=
  c = ' ' || c = '\t' || c = '\n' || c = '\r' || c = '\x0b' || c = '\x0c'

/-- Model of JavaScript `String.prototype.trim`: drop whitespace from both
ends. -/
def trimChars (l : List Char) : List Char :=
  ((l.dropWhile jsWS).reverse.dropWhile jsWS).reverse

/-- Model of JavaScript `String.prototype.split` with a single-character
separator: always returns at least one (possibly empty) piece. -/
def splitOnChar (sep : Char) : List Char → List (List Char)
  | [] => [[]]
  | c :: rest =>
    match splitOnChar sep rest with
    | [] => [[]]
    | p :: ps => if c = sep then [] :: p :: ps else (c :: p) :: ps

/-! ## The persisted stores (src/savedConfigsProvider.ts)

`SavedConfigurationsProvider.saveConfiguration` and
`CustomQueriesProvider.saveQuery` both read the stored list from the settings
blob, look for an entry with the same name via `findIndex`, overwrite it in
place when found, and push the new entry otherwise. -/

/-- A saved filter configuration (src/savedConfigsProvider.ts, `SavedConfiguration`). -/
structure SavedConfiguration where
  name : List Char
  statsCommand : List Char
  dateAfter : List Char
  dateBefore : List Char
  author : List Char
deriving DecidableEq

/-- A saved custom query (src/savedConfigsProvider.ts, `CustomQuery`). -/
structure CustomQuery where
  name : List Char
  query : List Char
deriving DecidableEq

/-- Model of `SavedConfigurationsProvider.saveConfiguration`
(src/savedConfigsProvider.ts lines 69-86): `findIndex` by name, overwrite the
found slot, otherwise `push`. -/
def saveConfiguration (savedConfigs : List SavedConfiguration)
    (config : SavedConfiguration) : List SavedConfiguration :=
  match savedConfigs.findIdx? (fun c => c.name == config.name) with
  | some existingIndex => savedConfigs.set existingIndex config
  | none => savedConfigs ++ [config]

/-- Model of `CustomQueriesProvider.saveQuery`
(src/savedConfigsProvider.ts lines 145-162). -/
def saveQuery (savedQueries : List CustomQuery) (query : CustomQuery) :
    List CustomQuery :=
  match savedQueries.findIdx? (fun q => q.name == query.name) with
  | some existingIndex => savedQueries.set existingIndex query
  | none => savedQueries ++ [query]

/-! ## Sorting (key, count) entries

`prepareFileTypesChart` (line 878), `showGitEffort` (line 1286) and
`showBranchStats` (lines 1782, 1789) all sort `Object.entries` arrays with the
comparator `(a, b) => b[1] - a[1]`.  ECMAScript (since ES2019) requires
`Array.prototype.sort` to be stable and to order the array consistently with
the comparator; we model it as a stable insertion sort parameterised by the
JS comparator. -/

/-- The comparator `(a, b) => b[1] - a[1]` used by `prepareFileTypesChart`,
`showGitEffort` and `showBranchStats`. -/
def countComparator (a b : List Char × Int) : Int := b.2 - a.2

/-- Stable insertion for the model of `Array.prototype.sort`: `x` is placed
before the first element `y` with `cmp x y ≤ 0`, hence after every element the
comparator puts strictly before it and before every element it ties with. -/
def jsSortInsert {α : Type} (cmp : α → α → Int) (x : α) : List α → List α
  | [] => [x]
  | y :: ys => if cmp x y ≤ 0 then x :: y :: ys else y :: jsSortInsert cmp x ys

/-- Model of `Array.prototype.sort(cmp)` (stable, comparator-consistent, as
the ECMAScript specification requires): stable insertion sort. -/
def jsSort {α : Type} (cmp : α → α → Int) (l : List α) : List α :=
  l.foldr (jsSortInsert cmp) []

/-- The sort applied to (key, count) entry lists by `prepareFileTypesChart`,
`showGitEffort` and `showBranchStats`. -/
def sortByCountDesc (l : List (List Char × Int)) : List (List Char × Int) :=
  jsSort countComparator l

/-! ## Bucket aggregation over parsed records

The reports parse each git output line into a key string (weekday number,
zero-padded hour, "day hour", year, …) and accumulate counts in a
`Record<string, number>`.  Fixed-key reports pre-initialise the buckets and
increment only existing buckets (`if (counts[k] !== undefined) counts[k]++`);
dynamic-key reports create buckets on demand
(`if (!counts[k]) { counts[k] = 0 } counts[k]++`). -/

/-- JS object property read `m[k]`: value at the (first) binding of the key,
if present. -/
def jsGet (m : List (List Char × Int)) (k : List Char) : Option Int :=
  (m.find? (fun kv => kv.1 == k)).map (fun kv => kv.2)

/-- JS object property write `m[k] = v`: update the (first) binding of `k` in
place if present, otherwise append a new binding (JS objects keep insertion
order). -/
def jsSet (m : List (List Char × Int)) (k : List Char) (v : Int) :
    List (List Char × Int) :=
  match m with
  | [] => [(k, v)]
  | kv :: rest => if kv.1 == k then (kv.1, v) :: rest else kv :: jsSet rest k v

/-- `if (counts[k] !== undefined) { counts[k]++; }` — the increment step of the
fixed-key bucket aggregations (`showCommitsByWeekday` lines 1498-1502,
`showCommitsByHourDay` lines 1010-1014, `showCommitsByHourWeek` lines
1378-1384, `generateInsights` lines 167-175). -/
def bumpIfPresent (m : List (List Char × Int)) (k : List Char) :
    List (List Char × Int) :=
  match jsGet m k with
  | some v => jsSet m k (v + 1)
  | none => m

/-- `if (!counts[k]) { counts[k] = 0; } counts[k]++;` — the increment step of
the dynamic-key aggregations (`showCommitsByYear` lines 1599-1604,
`showCommitsByMonth` lines 1109-1114, file counts in `generateInsights`):
a missing or zero (falsy) entry is first set to 0, then incremented. -/
def ensureBucket (m : List (List Char × Int)) (k : List Char) :
    List (List Char × Int) :=
  match jsGet m k with
  | none => jsSet m k 0
  | some v => if v = 0 then jsSet m k 0 else m

/-- After the falsy check the key is certainly present, so `counts[k]++`
reads the current value and writes back its successor. -/
def bumpOrCreate (m : List (List Char × Int)) (k : List Char) :
    List (List Char × Int) :=
  match jsGet (ensureBucket m k) k with
  | some v => jsSet (ensureBucket m k) k (v + 1)
  | none => ensureBucket m k

/-- The decimal digit character for `n < 10`. -/
def digitChar (n : Nat) : Char := Char.ofNat ('0'.toNat + n)

/-- Fuel-driven decimal rendering (most significant digit first). -/
def natToCharsAux : Nat → Nat → List Char → List Char
  | 0, _, acc => acc
  | fuel + 1, n, acc =>
    if n < 10 then digitChar n :: acc
    else natToCharsAux fuel (n / 10) (digitChar (n % 10) :: acc)

/-- Decimal rendering of a natural number, as JS `i.toString()` / template
interpolation produces. -/
def natToChars (n : Nat) : List Char := natToCharsAux (n + 1) n []

/-- JS `i.toString().padStart(2, "0")`. -/
def pad2 (n : Nat) : List Char :=
  if n < 10 then '0' :: natToChars n else natToChars n

/-- `weekdayCounts` initialisation of `showCommitsByWeekday` (lines 1494-1496):
keys "1".."7", all 0. -/
def weekdayCountsInit : List (List Char × Int) :=
  (List.range 7).map (fun i => (natToChars (i + 1), 0))

/-- The literal `weekdayCounts` record of `generateInsights` (lines 158-166). -/
def insightsWeekdayCounts : List (List Char × Int) :=
  [(chars "1", 0), (chars "2", 0), (chars "3", 0), (chars "4", 0),
   (chars "5", 0), (chars "6", 0), (chars "7", 0)]

/-- `hourCounts` initialisation of `showCommitsByHourDay` (lines 1005-1008):
keys "00".."23", all 0. -/
def hourCountsInit : List (List Char × Int) :=
  (List.range 24).map (fun i => (pad2 i, 0))

/-- `hourCounts` initialisation of `showCommitsByHourWeek` (lines 1371-1376):
keys "1 00".."7 23", all 0. -/
def hourWeekCountsInit : List (List Char × Int) :=
  ((List.range 7).map (fun d =>
    (List.range 24).map (fun h => (natToChars (d + 1) ++ ' ' :: pad2 h, 0)))).flatten

/-- The `forEach` aggregation loop of the fixed-key bucket reports: each
record's key increments its bucket when that bucket exists, and is silently
dropped otherwise. -/
def aggregateFixed (init : List (List Char × Int)) (records : List (List Char)) :
    List (List Char × Int) :=
  records.foldl bumpIfPresent init

/-- The aggregation loop of the dynamic-key reports (`showCommitsByYear`,
`showCommitsByMonth`): buckets are created on demand, starting from the empty
record. -/
def aggregateDynamic (records : List (List Char)) : List (List Char × Int) :=
  records.foldl bumpOrCreate []

/-- Sum of all bucket values, as
`Object.values(counts).reduce((sum, count) => sum + count, 0)` computes it. -/
def sumValues (m : List (List Char × Int)) : Int :=
  (m.map (fun kv => kv.2)).sum

/-! ## Shortlog parsing, author charts (C9) -/

/-- The nonempty output lines of a git invocation, in output order:
`result.split("\n").filter((line) => line.trim() !== "")`. -/
def gitLines (result : List Char) : List (List Char) :=
  (splitOnChar '\n' result).filter (fun l => trimChars l ≠ [])

/-- Model of the JS regex match `line.match(/^\s*(\d+)\s+(.+)$/)` that the
shortlog-based reports apply to each (newline-free) output line: skip leading
whitespace, capture one or more digits, require at least one whitespace
character, capture the non-empty rest.  When the rest after the greedy `\s+`
is empty the engine backtracks and `(.+)` receives the last whitespace
character, which needs at least two whitespace characters.  Returns
(commit-count digits, author text). -/
def parseShortlogLine (line : List Char) : Option (List Char × List Char) :=
  let t := line.dropWhile jsWS
  let ds := t.takeWhile Char.isDigit
  let rest := t.drop ds.length
  let w := rest.takeWhile jsWS
  let r := rest.drop w.length
  if ds = [] then none
  else if w = [] then none
  else if r ≠ [] then some (ds, r)
  else if 2 ≤ w.length then some (ds, [w.getLastD ' '])
  else none

/-- Numeric value of a decimal digit character. -/
def digitVal (c : Char) : Nat := c.toNat - '0'.toNat

/-- JS `parseInt(s, 10)` on the all-digit capture of the shortlog regex. -/
def parseIntDec (ds : List Char) : Int :=
  ((ds.foldl (fun acc c => 10 * acc + digitVal c) 0 : Nat) : Int)

/-- The (commit-count, author) entries extracted by the loop shared verbatim
by `showCommitsByAuthor` (lines 941-952) and `showContributorStats` (lines
1719-1730): each output line matching the shortlog regex contributes one
table row and one chart entry, in output order. -/
def authorEntries (result : List Char) : List (List Char × List Char) :=
  (gitLines result).filterMap parseShortlogLine

/-- The chart-limiting step of `showCommitsByAuthor` (lines 954-959) and
`showContributorStats` (lines 1732-1737): chart labels are the author names
and chart data the parsed commit counts, both truncated to the first 10 when
more than 10 authors were parsed. -/
def authorChart (result : List Char) : List (List Char) × List Int :=
  let labels := (authorEntries result).map (fun e => e.2)
  let data := (authorEntries result).map (fun e => parseIntDec e.1)
  if 10 < labels.length then (labels.take 10, data.take 10) else (labels, data)

/-! ## Git effort (C10) -/

/-- The tracked-file list of `showGitEffort` (lines 1255-1256): the nonempty
lines of the `git ls-files` output. -/
def gitEffortFiles (lsFilesOut : List Char) : List (List Char) :=
  gitLines lsFilesOut

/-- The per-file commit count of `showGitEffort` (lines 1272-1275): the number
of nonempty lines of the per-file `git log` output. -/
def commitCountOf (logOut : List Char) : Int :=
  ((gitLines logOut).length : Int)

/-- The per-file stats map of `showGitEffort` (lines 1259-1279): only the
first 100 files are processed (`files.slice(0, 100)`, line 1263, "Limit to
100 files for performance"); a file whose git invocation throws is skipped.
The per-file invocation is modelled by the oracle `logOut`. -/
def gitEffortStats (lsFilesOut : List Char)
    (logOut : List Char → Except (List Char) (List Char)) :
    List (List Char × Int) :=
  ((gitEffortFiles lsFilesOut).take 100).foldl
    (fun stats file =>
      match logOut file with
      | .ok out => jsSet stats file (commitCountOf out)
      | .error _ => stats) []

/-- The sorted (file, commits) table rows of `showGitEffort` (lines
1285-1291). -/
def gitEffortSortedFiles (lsFilesOut : List Char)
    (logOut : List Char → Except (List Char) (List Char)) :
    List (List Char × Int) :=
  sortByCountDesc (gitEffortStats lsFilesOut logOut)

/-- The second insight line of `showGitEffort` (line 1318):
`Analyzed N files out of M total files`. -/
def gitEffortAnalyzedInsight (lsFilesOut : List Char) : List Char :=
  chars "Analyzed " ++ natToChars ((gitEffortFiles lsFilesOut).take 100).length ++
  chars " files out of " ++ natToChars (gitEffortFiles lsFilesOut).length ++
  chars " total files"

/-! ## User-triggered action control flow (C4) -/

/-- Outcome of one user-triggered stats action: the error notifications the
action's own `catch` displays, the content the webview panel was updated
with (if any), and whether a promise rejection escaped unhandled. -/
structure ActionOutcome where
  errorNotifications : List (List Char)
  panelContent : Option (List Char)
  unhandledRejection : Bool
deriving DecidableEq

/-- Model of `GitStatsCommands.executeCommand` (lines 92-142).  `gitOk` says
whether a git handle is available after `initGit`; `body` is the outcome of
`command(filter)` — `Except.error` when the git invocation or parsing throws.
The `try` at line 109 wraps only the *synchronous* call of
`vscode.window.withProgress`; the thenable that call returns is neither
awaited nor returned, so a rejection of the async callback (where
`command(filter)` and the panel update run) escapes the `try`/`catch` as an
unhandled promise rejection: the `catch` at line 139 does not run and no
error notification is displayed.  On success the panel is updated with the
full result; on failure it is not updated at all. -/
def executeCommand (gitOk : Bool) (body : Except (List Char) (List Char)) :
    ActionOutcome :=
  if !gitOk then
    ⟨[], none, false⟩
  else
    match body with
    | .ok content => ⟨[], some content, false⟩
    | .error _ => ⟨[], none, true⟩

/-- Line 315 of `executeCustomQuery`:
`const queryParts = query.query.split(" ")` — the argument list actually
passed to `git.raw`. -/
def customQueryArgs (query : List Char) : List (List Char) :=
  splitOnChar ' ' query

/-- The pipe-table formatting step of `executeCustomQuery` (lines 318-337). -/
def formatCustomQueryResult (result : List Char) : List Char :=
  if result.contains '|' then
    match gitLines result with
    | [] => result
    | l0 :: rest =>
      let headers := (splitOnChar '|' l0).map trimChars
      List.intercalate (chars " | ") headers ++ ['\n'] ++
      List.intercalate (chars " | ") (headers.map (fun _ => chars "---")) ++ ['\n'] ++
      (rest.map (fun li =>
        List.intercalate (chars " | ") ((splitOnChar '|' li).map trimChars) ++ ['\n'])).flatten
  else result

/-- Model of `GitStatsCommands.executeCustomQuery` (lines 296-358).  The
stored query string is split on single spaces and handed to `git.raw`
(modelled by the oracle `raw`), the result is pipe-formatted and shown.  As
in `executeCommand`, the `withProgress` thenable is not awaited, so a thrown
git error escapes as an unhandled rejection without any notification. -/
def executeCustomQuery (gitOk : Bool) (query : CustomQuery)
    (raw : List (List Char) → Except (List Char) (List Char)) : ActionOutcome :=
  if !gitOk then
    ⟨[], none, false⟩
  else
    match raw (customQueryArgs query.query) with
    | .ok result => ⟨[], some (formatCustomQueryResult result), false⟩
    | .error _ => ⟨[], none, true⟩

/-! ## Command-line tokens (C6)

Modelled from the spec: "a saved, user-authored raw command-line string
executed verbatim", "including strings containing quoted arguments with
spaces".  The source does not contain a command-line tokenizer (it calls
`query.query.split(" ")`), so the spec's notion of "the saved string's
command line" is modelled here from the spec's words. -/

/-- Modelled from the spec: command-line tokenizer state machine.  `inQ` is
whether we are inside a double-quoted segment, `cur` the current token
being built (in reverse), `none` when between tokens.  Tokens are separated
by runs of spaces outside quotes; a double-quoted segment groups its content
(spaces included) into the current token, the quotes themselves not being
part of the token. -/
def clTokens : Bool → Option (List Char) → List Char → List (List Char)
  | _, none, [] => []
  | _, some t, [] => [t.reverse]
  | inQ, cur, c :: rest =>
    if c = '"' then clTokens (!inQ) (some (cur.getD [])) rest
    else if c = ' ' ∧ inQ = false then
      match cur with
      | none => clTokens false none rest
      | some t => t.reverse :: clTokens false none rest
    else clTokens inQ (some (c :: cur.getD [])) rest

/-- Modelled from the spec: the command-line tokens of a saved query
string. -/
def commandLineTokens (s : List Char) : List (List Char) :=
  clTokens false none s

/-! ## Reports built directly from output lines (C7) -/

/-- Model of JS `Array.prototype.join(sep)` on an array of strings. -/
def joinSep (sep : List Char) : List (List Char) → List Char
  | [] => []
  | [x] => x
  | x :: y :: xs => x ++ sep ++ joinSep sep (y :: xs)

/-- One table row of `getCommitsByAuthorRaw` (lines 553-560), without the
trailing newline: `author | commits`. -/
def authorRow (e : List Char × List Char) : List Char :=
  e.2 ++ chars " | " ++ e.1

/-- The per-line contribution of the `getCommitsByAuthorRaw` loop: a matching
line appends its row and newline, a non-matching line appends nothing. -/
def authorRowRender (line : List Char) : List Char :=
  match parseShortlogLine line with
  | some e => authorRow e ++ ['\n']
  | none => []

/-- Model of the output formatting of `getCommitsByAuthorRaw` (lines
547-562): header, separator, then one row per matching output line,
appended in output order. -/
def commitsByAuthorContent (result : List Char) : List Char :=
  (gitLines result).foldl (fun out line => out ++ authorRowRender line)
    (chars "Author | Commits\n-------|--------\n")

/-- JS `array[i]` for an `Int` index, as a string: out-of-range (including
negative) indices give `undefined`, which a template literal renders as
"undefined". -/
def jsIndexStr (l : List (List Char)) (i : Int) : List Char :=
  if h : 0 ≤ i ∧ i.toNat < l.length then l.get ⟨i.toNat, h.2⟩
  else chars "undefined"

/-- One table row of `showChangelog` (lines 1841-1847), without the trailing
newline: the line is split on spaces; the first word is the commit hash,
`parts.slice(1, -2)` joined with spaces the message, `parts[parts.length-2]`
the author and `parts[parts.length-1]` the date. -/
def changelogRow (line : List Char) : List Char :=
  let parts := splitOnChar ' ' line
  let commitHash := jsIndexStr parts 0
  let message := joinSep (chars " ") ((parts.take (parts.length - 2)).drop 1)
  let author := jsIndexStr parts ((parts.length : Int) - 2)
  let date := jsIndexStr parts ((parts.length : Int) - 1)
  commitHash ++ chars " | " ++ message ++ chars " | " ++ author ++
    chars " | " ++ date

/-- Model of the output formatting of `showChangelog` (lines 1836-1848):
header, separator, then one row per nonempty output line, appended in output
order. -/
def showChangelogContent (result : List Char) : List Char :=
  (gitLines result).foldl
    (fun content line => content ++ (changelogRow line ++ ['\n']))
    (chars "Commit | Message | Author | Date\n-------|---------|--------|-----\n")

/-! ## HTML table markup and CSV/JSON export (C1)

`_getHtmlForWebview` (part_001 lines 281-321) turns the pipe-delimited report
content into `<table class="stats-table">` markup; the export buttons send
that markup back and `convertToCSV` / `convertToJSON` (lines 184-246) parse
it with the regexes `/<tr>(.+?)<\/tr>/gs` and `/<t[hd]>(.+?)<\/t[hd]>/g`.
The JS regex machinery needed — global scanning with lazy `(.+?)` between
literal open/close alternatives — is modelled exactly: at each position the
engine tries the earliest open alternative, extends the lazy content one
character at a time until a close alternative follows, and on failure
restarts one character later.  Without the `s` flag, `.` does not match a
newline. -/

/-- First alternative of a character-class tag pattern (such as `<t[hd]>`)
matching at the start of `s`. -/
def findAlt (alts : List (List Char)) (s : List Char) : Option (List Char) :=
  alts.find? (fun a => a.isPrefixOf s)

/-- Lazy `(.+?)` scan: the shortest nonempty content (of characters allowed
by the dot) after which a close alternative matches.  Returns (content,
matched close, rest after the close). -/
def lazyUpto (closes : List (List Char)) (dotAll : Bool) :
    List Char → Option (List Char × List Char × List Char)
  | [] => none
  | c :: s =>
    if dotAll = false ∧ c = '\n' then none
    else
      match findAlt closes s with
      | some cl => some ([c], cl, s.drop cl.length)
      | none =>
        match lazyUpto closes dotAll s with
        | some (content, cl, tail) => some (c :: content, cl, tail)
        | none => none

/-- One attempt of the pattern `open(.+?)close` at the start of `s`.
Returns (full match, captured content, rest after the match). -/
def tryMatchAt (opens closes : List (List Char)) (dotAll : Bool)
    (s : List Char) : Option (List Char × List Char × List Char) :=
  match findAlt opens s with
  | none => none
  | some op =>
    match lazyUpto closes dotAll (s.drop op.length) with
    | none => none
    | some (content, cl, tail) => some (op ++ content ++ cl, content, tail)

/-- Fuel-driven global scan (fuel bounds the number of positions tried; the
input length is always enough fuel). -/
def scanF (opens closes : List (List Char)) (dotAll : Bool) :
    Nat → List Char → List (List Char)
  | 0, _ => []
  | _ + 1, [] => []
  | fuel + 1, c :: s =>
    match tryMatchAt opens closes dotAll (c :: s) with
    | some (m, _, tail) => m :: scanF opens closes dotAll fuel tail
    | none => scanF opens closes dotAll fuel s

/-- JS `str.match(/open(.+?)close/g)`: the list of full matches, left to
right and non-overlapping ([] when there is no match, as `null` behaves in
the `!rows` / `!cells` checks of the export code). -/
def jsMatchAll (opens closes : List (List Char)) (dotAll : Bool)
    (s : List Char) : List (List Char) :=
  scanF opens closes dotAll s.length s

/-- Fuel-driven global replace-with-capture. -/
def replF (opens closes : List (List Char)) (dotAll : Bool) :
    Nat → List Char → List Char
  | 0, s => s
  | _ + 1, [] => []
  | fuel + 1, c :: s =>
    match tryMatchAt opens closes dotAll (c :: s) with
    | some (_, content, tail) => content ++ replF opens closes dotAll fuel tail
    | none => c :: replF opens closes dotAll fuel s

/-- JS `str.replace(/open(.+?)close/g, "$1")`. -/
def jsReplaceAll (opens closes : List (List Char)) (dotAll : Bool)
    (s : List Char) : List Char :=
  replF opens closes dotAll s.length s

/-- The alternatives of the export regexes. -/
def rowOpens : List (List Char) := [chars "<tr>"]

def rowCloses : List (List Char) := [chars "</tr>"]

def cellOpens : List (List Char) := [chars "<th>", chars "<td>"]

def cellCloses : List (List Char) := [chars "</th>", chars "</td>"]

def thOpens : List (List Char) := [chars "<th>"]

def thCloses : List (List Char) := [chars "</th>"]

def tdOpens : List (List Char) := [chars "<td>"]

def tdCloses : List (List Char) := [chars "</td>"]

/-- `data.match(/<tr>(.+?)<\/tr>/gs)` — the row matches of both exports. -/
def trMatches (data : List Char) : List (List Char) :=
  jsMatchAll rowOpens rowCloses true data

/-- `row.match(/<t[hd]>(.+?)<\/t[hd]>/g)` — the cell matches of
`convertToCSV`. -/
def cellMatches (row : List Char) : List (List Char) :=
  jsMatchAll cellOpens cellCloses false row

/-- `cell.replace(/<t[hd]>(.+?)<\/t[hd]>/g, "$1")` in `convertToCSV`. -/
def stripCellTags (cell : List Char) : List Char :=
  jsReplaceAll cellOpens cellCloses false cell

/-- The CSV quote escaping `content.replace(/"/g, '""')`. -/
def escQuotes : List Char → List Char
  | [] => []
  | c :: r => if c = '"' then '"' :: '"' :: escQuotes r else c :: escQuotes r

/-- One CSV field: `"${content.replace(/"/g, '""')}"`. -/
def csvQuote (content : List Char) : List Char :=
  '"' :: (escQuotes content ++ ['"'])

/-- One row of `convertToCSV` (part_001 lines 193-203): the cell matches of
the row, tags stripped, quoted and joined with commas; a row without cell
matches contributes an empty line. -/
def csvRow (row : List Char) : List Char :=
  match cellMatches row with
  | [] => []
  | cells => joinSep [','] (cells.map (fun cell => csvQuote (stripCellTags cell)))

/-- Model of `GitStatsWebView.convertToCSV` (part_001 lines 184-205). -/
def convertToCSV (data : List Char) : List Char :=
  match trMatches data with
  | [] => []
  | rows => joinSep ['\n'] (rows.map csvRow)

def stripThTags (cell : List Char) : List Char :=
  jsReplaceAll thOpens thCloses false cell

def stripTdTags (cell : List Char) : List Char :=
  jsReplaceAll tdOpens tdCloses false cell

/-- JS `rowObject[header] = value` on the plain object built by
`convertToJSON`: update the binding in place if the key exists, else append
(JS objects keep insertion order). -/
def jsObjAssign (obj : List (List Char × List Char)) (k v : List Char) :
    List (List Char × List Char) :=
  match obj with
  | [] => [(k, v)]
  | kv :: rest => if kv.1 == k then (kv.1, v) :: rest else kv :: jsObjAssign rest k v

/-- The expected value of the header `forEach` loop: consecutive values
zipped from index `i` on. -/
def zipValsFrom (values : List (List Char)) : Nat → List (List Char) →
    List (List Char × List Char)
  | _, [] => []
  | i, h :: hs => (h, values.getD i []) :: zipValsFrom values (i + 1) hs

/-- The `headers.forEach((header, index) => rowObject[header] =
values[index] || "")` loop of `convertToJSON` (lines 238-240); `i` is the
running index. -/
def buildRowObjectGo (values : List (List Char)) :
    Nat → List (List Char) → List (List Char × List Char) →
    List (List Char × List Char)
  | _, [], obj => obj
  | i, h :: hs, obj => buildRowObjectGo values (i + 1) hs (jsObjAssign obj h (values.getD i []))

/-- One data row of `convertToJSON` (part_001 lines 231-243): the `<td>`
matches of the row become the row object's values in header order; a row
without `<td>` matches is skipped (`if (cells) { ... }`). -/
def jsonRow (headers : List (List Char)) (row : List Char) :
    Option (List (List Char × List Char)) :=
  match jsMatchAll tdOpens tdCloses false row with
  | [] => none
  | dataCells =>
    let values := dataCells.map stripTdTags
    some (buildRowObjectGo values 0 headers [])

/-- Model of `GitStatsWebView.convertToJSON` (part_001 lines 207-246), up to
the final `JSON.stringify`: the list of row objects as ordered key-value
lists (the serialization itself is a library call and is injective on this
data).  `[]` corresponds to the `"[]"` early returns. -/
def convertToJSONRecords (data : List Char) :
    List (List (List Char × List Char)) :=
  let rows := trMatches data
  if rows.length < 2 then []
  else
    match jsMatchAll thOpens thCloses false (rows.headD []) with
    | [] => []
    | headerCells => (rows.drop 1).filterMap (jsonRow (headerCells.map stripThTags))

/-- The cell markup of one table row (part_001 lines 292-296 and 309-313):
each `|`-separated cell is trimmed and wrapped in the given tag; `join("")`
is concatenation. -/
def rowCellsHtml (op cl : List Char) (row : List Char) : List Char :=
  ((splitOnChar '|' row).map (fun cell => op ++ trimChars cell ++ cl)).flatten

/-- The concatenated markup of a list of already-trimmed cell texts, each
wrapped in the given tag pair: `rowCellsHtml op cl row = wrapCells op cl
(trimmed |-split cells of row)`. -/
def wrapCells (op cl : List Char) (cells : List (List Char)) : List Char :=
  (cells.map (fun t => op ++ t ++ cl)).flatten

/-- The separator-row test of `_getHtmlForWebview` (part_001 line 305):
`rows[i].includes("-|-") || rows[i].match(/^[-|]+$/)`. -/
def isSeparatorRow (row : List Char) : Bool :=
  decide ((chars "-|-") <:+: row) ||
    (!row.isEmpty && row.all (fun c => c = '-' || c = '|'))

/-- Model of the markup generation of `_getHtmlForWebview` (part_001 lines
281-321): pipe-delimited content becomes a `<table class="stats-table">` with
a `<th>` header row and `<td>` data rows (separator rows skipped); content
without a pipe is wrapped in `<pre>`.  This markup is what the export buttons
send to `convertToCSV` / `convertToJSON`. -/
def htmlContentOf (content : List Char) : List Char :=
  if content.contains '|' then
    match (splitOnChar '\n' content).filter (fun r => trimChars r ≠ []) with
    | [] => []
    | r0 :: rest =>
      chars "<table class=\"stats-table\">" ++
      (chars "<tr>" ++ rowCellsHtml (chars "<th>") (chars "</th>") r0 ++ chars "</tr>") ++
      (rest.filterMap (fun r =>
        if isSeparatorRow r then none
        else some (chars "<tr>" ++ rowCellsHtml (chars "<td>") (chars "</td>") r ++ chars "</tr>"))).flatten ++
      chars "</table>"
  else chars "<pre>" ++ content ++ chars "</pre>"

/-- The visible header cell texts of the displayed table: the trimmed
`|`-split cells of the first nonempty content line. -/
def headerCellsOf (content : List Char) : List (List Char) :=
  match (splitOnChar '\n' content).filter (fun r => trimChars r ≠ []) with
  | [] => []
  | r0 :: _ => (splitOnChar '|' r0).map trimChars

/-- The visible data-row cell texts of the displayed table: the trimmed
`|`-split cells of the remaining nonempty, non-separator content lines. -/
def dataRowsOf (content : List Char) : List (List (List Char)) :=
  match (splitOnChar '\n' content).filter (fun r => trimChars r ≠ []) with
  | [] => []
  | _ :: rest =>
    rest.filterMap (fun r =>
      if isSeparatorRow r then none
      else some ((splitOnChar '|' r).map trimChars))

/-- A cell text round-trips through the export regexes when it is nonempty
and contains none of the closing-tag substrings at which the lazy matches
stop.  (Cell texts coming from the markup generator never contain `|` or a
newline, so those need no condition.) -/
def SafeCell (t : List Char) : Prop :=
  t ≠ [] ∧ ¬ ((chars "</th>") <:+: t) ∧ ¬ ((chars "</td>") <:+: t) ∧
    ¬ ((chars "</tr>") <:+: t)

instance (t : List Char) : Decidable (SafeCell t) := by
  unfold SafeCell
  infer_instance

/-- Collapse the doubled quotes of a CSV field body. -/
def unescQuotes : List Char → List Char
  | [] => []
  | '"' :: '"' :: r => '"' :: unescQuotes r
  | c :: r => c :: unescQuotes r

/-- Parse one CSV field back: strip the surrounding quotes and collapse the
doubled quotes. -/
def csvUnquote (f : List Char) : List Char :=
  unescQuotes ((f.drop 1).dropLast)

/-- A tag literal of the export regexes: nonempty, starts with `<`, and `<`
occurs only at its head. -/
def tagLike (a : List Char) : Prop :=
  a ≠ [] ∧ a.head? = some '<' ∧ ∀ c ∈ a.tail, c ≠ '<'

/-! ### End of definitions, start of theorems -/

theorem splitOnChar_ne_nil (sep : Char) (l : List Char) : splitOnChar sep l ≠ [] := by
  cases l with
  | nil => simp [splitOnChar]
  | cons c rest =>
    simp only [splitOnChar]
    cases h : splitOnChar sep rest with
    | nil => simp
    | cons p ps =>
      by_cases hc : c = sep <;> simp [hc]

/-- Any index returned by `List.findIdx?` is in bounds. -/
theorem findIdx?_lt_length {α : Type} {l : List α} {p : α → Bool} {i : Nat}
    (h : l.findIdx? p = some i) : i < l.length := by
  induction l generalizing i with
  | nil => simp [List.findIdx?_nil] at h
  | cons a t ih =>
    rw [List.findIdx?_cons] at h
    by_cases hp : p a
    · simp [hp] at h
      simp [← h, List.length_cons]
    · rw [if_neg (by simp [hp]), List.findIdx?_succ] at h
      cases h' : t.findIdx? p with
      | none => rw [h'] at h; simp at h
      | some j =>
        rw [h'] at h
        simp only [Option.map_some', Option.some.injEq] at h
        have := ih h'
        simp only [List.length_cons]
        omega

/-- Generic replace-or-append behaviour shared by both persisted stores. -/
theorem save_replaces_or_appends {α : Type} [DecidableEq α]
    (name : α → List Char) (upd : List α → α → List α)
    (hupd : ∀ l x, upd l x =
      match l.findIdx? (fun c => name c == name x) with
      | some i => l.set i x
      | none => l ++ [x])
    (l : List α) (x : α) :
    ((∃ y ∈ l, name y = name x) →
      ∃ i, i < l.length ∧ upd l x = l.set i x ∧
        (upd l x).length = l.length ∧ (upd l x)[i]? = some x ∧
        ∀ j, j ≠ i → (upd l x)[j]? = l[j]?) ∧
    ((∀ y ∈ l, name y ≠ name x) → upd l x = l ++ [x]) := by
  have hrw := hupd l x
  cases h : l.findIdx? (fun c => name c == name x) with
  | some i =>
    rw [h] at hrw
    constructor
    · intro _
      have hlt : i < l.length := findIdx?_lt_length h
      refine ⟨i, hlt, hrw, ?_, ?_, ?_⟩
      · rw [hrw]; exact List.length_set l i x
      · rw [hrw]; exact List.getElem?_set_self hlt
      · intro j hj; rw [hrw]; exact List.getElem?_set_ne (Ne.symm hj)
    · intro hnone
      have hni : l.findIdx? (fun c => name c == name x) = none :=
        List.findIdx?_eq_none_iff.mpr (fun y hy => by simpa using hnone y hy)
      rw [h] at hni
      exact absurd hni (by simp)
  | none =>
    rw [h] at hrw
    rw [List.findIdx?_eq_none_iff] at h
    constructor
    · rintro ⟨y, hy, hname⟩
      have := h y hy
      simp [hname] at this
    · intro _
      exact hrw

/-- Inserting with `jsSortInsert` permutes the element onto the list. -/
theorem jsSortInsert_perm {α : Type} (cmp : α → α → Int) (x : α) (l : List α) :
    (jsSortInsert cmp x l).Perm (x :: l) := by
  induction l with
  | nil => simp [jsSortInsert]
  | cons y ys ih =>
    simp only [jsSortInsert]
    by_cases hc : cmp x y ≤ 0
    · rw [if_pos hc]
    · rw [if_neg hc]
      exact List.Perm.trans (List.Perm.cons y ih) (List.Perm.swap x y ys)

/-- `jsSort` permutes its input. -/
theorem jsSort_perm {α : Type} (cmp : α → α → Int) (l : List α) :
    (jsSort cmp l).Perm l := by
  induction l with
  | nil => simp [jsSort]
  | cons x xs ih =>
    exact List.Perm.trans (jsSortInsert_perm cmp x (jsSort cmp xs))
      (List.Perm.cons x ih)

/-- `jsSortInsert` with `countComparator` preserves descending order. -/
theorem jsSortInsert_sorted (x : List Char × Int) (l : List (List Char × Int))
    (h : l.Pairwise (fun a b => b.2 ≤ a.2)) :
    (jsSortInsert countComparator x l).Pairwise (fun a b => b.2 ≤ a.2) := by
  induction l with
  | nil => simp [jsSortInsert]
  | cons y ys ih =>
    rw [List.pairwise_cons] at h
    obtain ⟨hy, hys⟩ := h
    simp only [jsSortInsert]
    by_cases hc : countComparator x y ≤ 0
    · rw [if_pos hc]
      have hxy : y.2 ≤ x.2 := by
        simp only [countComparator] at hc; omega
      refine List.Pairwise.cons ?_ (List.Pairwise.cons hy hys)
      intro z hz
      rcases List.mem_cons.mp hz with hz | hz
      · subst hz; omega
      · have := hy z hz; omega
    · rw [if_neg hc]
      have hxy : x.2 < y.2 := by
        simp only [countComparator] at hc; omega
      refine List.Pairwise.cons ?_ (ih hys)
      intro z hz
      have hz' : z ∈ x :: ys := (jsSortInsert_perm countComparator x ys).mem_iff.mp hz
      rcases List.mem_cons.mp hz' with hz' | hz'
      · subst hz'; omega
      · exact hy z hz'

/-- `jsSort countComparator` produces a descending sequence of counts. -/
theorem jsSort_sorted (l : List (List Char × Int)) :
    (jsSort countComparator l).Pairwise (fun a b => b.2 ≤ a.2) := by
  induction l with
  | nil => simp [jsSort]
  | cons x xs ih => exact jsSortInsert_sorted x (jsSort countComparator xs) ih

/-- Filtering on an exact count commutes with `jsSortInsert countComparator`:
the inserted element only jumps over strictly larger counts. -/
theorem jsSortInsert_filter (x : List Char × Int) (l : List (List Char × Int))
    (k : Int) :
    (jsSortInsert countComparator x l).filter (fun e => e.2 == k) =
      (if x.2 == k then
        x :: l.filter (fun e => e.2 == k)
      else
        l.filter (fun e => e.2 == k)) := by
  induction l with
  | nil => by_cases hx : x.2 == k <;> simp [jsSortInsert, List.filter, hx]
  | cons y ys ih =>
    simp only [jsSortInsert]
    by_cases hc : countComparator x y ≤ 0
    · rw [if_pos hc]
      by_cases hx : x.2 == k <;> simp [List.filter_cons, hx]
    · rw [if_neg hc]
      have hxy : x.2 < y.2 := by
        simp only [countComparator] at hc; omega
      by_cases hx : x.2 == k
      · have hyk : ¬ (y.2 == k) := by
          intro hyk
          have h1 : x.2 = k := by simpa using hx
          have h2 : y.2 = k := by simpa using hyk
          omega
        simp [List.filter_cons, hyk, ih, hx]
      · by_cases hyk : y.2 == k <;> simp [List.filter_cons, hyk, ih, hx]

/-- Stability of the modelled sort: for every count value, the entries with
that count appear in the output in the same order as in the input. -/
theorem jsSort_filter (l : List (List Char × Int)) (k : Int) :
    (jsSort countComparator l).filter (fun e => e.2 == k) =
      l.filter (fun e => e.2 == k) := by
  induction l with
  | nil => simp [jsSort]
  | cons x xs ih =>
    show (jsSortInsert countComparator x (jsSort countComparator xs)).filter _ = _
    rw [jsSortInsert_filter]
    by_cases hx : x.2 == k <;> simp [List.filter_cons, hx, ih]

/-- **C3**: sorting (key, count) entries with the comparator
`(a, b) => b[1] - a[1]` (as `prepareFileTypesChart`, `showGitEffort` and
`showBranchStats` do) yields a permutation of the input in descending count
order, and the sort is stable: for every count value, entries with that count
keep their relative input order. -/
theorem claim3_sort_by_count_desc_stable (l : List (List Char × Int)) :
    (sortByCountDesc l).Pairwise (fun a b => b.2 ≤ a.2) ∧
    (∀ k : Int, (sortByCountDesc l).filter (fun e => e.2 == k) =
      l.filter (fun e => e.2 == k)) ∧
    (sortByCountDesc l).Perm l :=
  ⟨jsSort_sorted l, fun k => jsSort_filter l k, jsSort_perm countComparator l⟩

/-- **C5**: saving a configuration or custom query under a name that already
exists in the stored list replaces the (first) existing entry — the list
length is unchanged, the found slot holds the new entry and every other slot
is untouched — while saving under a fresh name appends the entry to the end;
no other uniqueness constraint is enforced on the stored list. -/
theorem claim5_store_replace_or_append
    (configs : List SavedConfiguration) (c : SavedConfiguration)
    (queries : List CustomQuery) (q : CustomQuery) :
    (((∃ y ∈ configs, y.name = c.name) →
       ∃ i, i < configs.length ∧ saveConfiguration configs c = configs.set i c ∧
         (saveConfiguration configs c).length = configs.length ∧
         (saveConfiguration configs c)[i]? = some c ∧
         ∀ j, j ≠ i → (saveConfiguration configs c)[j]? = configs[j]?) ∧
     ((∀ y ∈ configs, y.name ≠ c.name) →
       saveConfiguration configs c = configs ++ [c])) ∧
    (((∃ y ∈ queries, y.name = q.name) →
       ∃ i, i < queries.length ∧ saveQuery queries q = queries.set i q ∧
         (saveQuery queries q).length = queries.length ∧
         (saveQuery queries q)[i]? = some q ∧
         ∀ j, j ≠ i → (saveQuery queries q)[j]? = queries[j]?) ∧
     ((∀ y ∈ queries, y.name ≠ q.name) →
       saveQuery queries q = queries ++ [q])) :=
  ⟨save_replaces_or_appends SavedConfiguration.name saveConfiguration
      (fun _ _ => rfl) configs c,
   save_replaces_or_appends CustomQuery.name saveQuery
      (fun _ _ => rfl) queries q⟩

/-- Witness for C5: a concrete overwrite (same name, singleton store) and a
concrete append (fresh name, empty store). -/
theorem claim5_store_replace_or_append_witness :
    (∃ i, i < ([⟨chars "a", [], [], [], []⟩] : List SavedConfiguration).length ∧
      saveConfiguration [⟨chars "a", [], [], [], []⟩] ⟨chars "a", chars "cmd", [], [], []⟩ =
        ([⟨chars "a", [], [], [], []⟩] : List SavedConfiguration).set i
          ⟨chars "a", chars "cmd", [], [], []⟩ ∧
      (saveConfiguration [⟨chars "a", [], [], [], []⟩]
          ⟨chars "a", chars "cmd", [], [], []⟩).length =
        ([⟨chars "a", [], [], [], []⟩] : List SavedConfiguration).length ∧
      (saveConfiguration [⟨chars "a", [], [], [], []⟩]
          ⟨chars "a", chars "cmd", [], [], []⟩)[i]? =
        some ⟨chars "a", chars "cmd", [], [], []⟩ ∧
      ∀ j, j ≠ i →
        (saveConfiguration [⟨chars "a", [], [], [], []⟩]
            ⟨chars "a", chars "cmd", [], [], []⟩)[j]? =
          ([⟨chars "a", [], [], [], []⟩] : List SavedConfiguration)[j]?) ∧
    saveQuery [] ⟨chars "n", chars "log"⟩ = [] ++ [⟨chars "n", chars "log"⟩] :=
  ⟨(claim5_store_replace_or_append [⟨chars "a", [], [], [], []⟩]
      ⟨chars "a", chars "cmd", [], [], []⟩ [] ⟨chars "n", chars "log"⟩).1.1
      ⟨⟨chars "a", [], [], [], []⟩, by simp, rfl⟩,
   (claim5_store_replace_or_append [⟨chars "a", [], [], [], []⟩]
      ⟨chars "a", chars "cmd", [], [], []⟩ [] ⟨chars "n", chars "log"⟩).2.2
      (by simp)⟩

/-- `jsGet` on a cons whose head matches the key. -/
theorem jsGet_cons_pos {kv : List Char × Int} {rest : List (List Char × Int)}
    {k : List Char} (hk : (kv.1 == k) = true) :
    jsGet (kv :: rest) k = some kv.2 := by
  unfold jsGet
  rw [@List.find?_cons_of_pos _ (fun kv => kv.1 == k) kv rest hk]
  rfl

/-- `jsGet` on a cons whose head does not match the key. -/
theorem jsGet_cons_neg {kv : List Char × Int} {rest : List (List Char × Int)}
    {k : List Char} (hk : ¬ (kv.1 == k) = true) :
    jsGet (kv :: rest) k = jsGet rest k := by
  unfold jsGet
  rw [@List.find?_cons_of_neg _ (fun kv => kv.1 == k) kv rest hk]

/-- A successful `jsGet` reads the value of some entry of the object. -/
theorem jsGet_mem {m : List (List Char × Int)} {k : List Char} {v : Int}
    (h : jsGet m k = some v) : ∃ kv ∈ m, kv.2 = v := by
  unfold jsGet at h
  cases hf : m.find? (fun kv => kv.1 == k) with
  | none => rw [hf] at h; simp at h
  | some kv =>
    rw [hf] at h
    simp only [Option.map_some', Option.some.injEq] at h
    exact ⟨kv, List.mem_of_find?_eq_some hf, h⟩

/-- Overwriting an existing key changes the sum of values by the difference. -/
theorem sumValues_jsSet {m : List (List Char × Int)} {k : List Char} {v : Int}
    (w : Int) (h : jsGet m k = some v) :
    sumValues (jsSet m k w) = sumValues m - v + w := by
  induction m with
  | nil => simp [jsGet] at h
  | cons kv rest ih =>
    by_cases hk : kv.1 == k
    · rw [jsGet_cons_pos hk] at h
      have hv : v = kv.2 := by
        simpa using h.symm
      subst hv
      simp only [jsSet, if_pos hk, sumValues, List.map_cons, List.sum_cons]
      ring
    · rw [jsGet_cons_neg hk] at h
      simp only [jsSet, if_neg hk, sumValues, List.map_cons, List.sum_cons]
      have := ih h
      simp only [sumValues] at this
      omega

/-- Overwriting an existing key does not change which keys are present. -/
theorem jsGet_jsSet_isSome {m : List (List Char × Int)} {k : List Char}
    {v : Int} (w : Int) (k' : List Char) (h : jsGet m k = some v) :
    (jsGet (jsSet m k w) k').isSome = (jsGet m k').isSome := by
  induction m with
  | nil => simp [jsGet] at h
  | cons kv rest ih =>
    by_cases hk : kv.1 == k
    · simp only [jsSet, if_pos hk]
      by_cases hk' : kv.1 == k'
      · rw [@jsGet_cons_pos (kv.1, w) rest k' hk', jsGet_cons_pos hk']
        rfl
      · rw [@jsGet_cons_neg (kv.1, w) rest k' hk', jsGet_cons_neg hk']
    · rw [jsGet_cons_neg hk] at h
      simp only [jsSet, if_neg hk]
      by_cases hk' : kv.1 == k'
      · rw [jsGet_cons_pos hk', jsGet_cons_pos hk']
      · rw [jsGet_cons_neg hk', jsGet_cons_neg hk']
        exact ih h

/-- One fixed-key increment adds exactly 1 to the total when the record's key
is a bucket key, and nothing otherwise. -/
theorem sumValues_bumpIfPresent (m : List (List Char × Int)) (k : List Char) :
    sumValues (bumpIfPresent m k) =
      sumValues m + (if (jsGet m k).isSome then 1 else 0) := by
  unfold bumpIfPresent
  cases h : jsGet m k with
  | none => simp [h]
  | some v =>
    rw [sumValues_jsSet (v + 1) h]
    simp [h]
    ring

/-- A fixed-key increment does not change which buckets exist. -/
theorem jsGet_bumpIfPresent_isSome (m : List (List Char × Int))
    (k k' : List Char) :
    (jsGet (bumpIfPresent m k) k').isSome = (jsGet m k').isSome := by
  unfold bumpIfPresent
  cases h : jsGet m k with
  | none => rfl
  | some v => exact jsGet_jsSet_isSome (v + 1) k' h

/-- Total bucket count after a fixed-key aggregation: the number of records
whose key is a bucket key (records with any other key are dropped). -/
theorem sumValues_aggregateFixed (init : List (List Char × Int))
    (records : List (List Char)) :
    sumValues (aggregateFixed init records) =
      sumValues init +
        ((records.filter (fun r => (jsGet init r).isSome)).length : Int) := by
  induction records generalizing init with
  | nil => simp [aggregateFixed]
  | cons r rs ih =>
    have hstep : aggregateFixed init (r :: rs) =
        aggregateFixed (bumpIfPresent init r) rs := rfl
    rw [hstep, ih]
    have hfil : rs.filter (fun x => (jsGet (bumpIfPresent init r) x).isSome) =
        rs.filter (fun x => (jsGet init x).isSome) :=
      List.filter_congr (fun x _ => by rw [jsGet_bumpIfPresent_isSome])
    rw [hfil, sumValues_bumpIfPresent]
    by_cases hr : (jsGet init r).isSome
    · rw [List.filter_cons_of_pos (by simpa using hr)]
      simp only [hr, if_pos, List.length_cons]
      push_cast
      ring
    · rw [List.filter_cons_of_neg (by simpa using hr)]
      simp [hr]

/-- The fixed bucket initialisations all start every bucket at 0, so their
values sum to 0 and are all non-negative. -/
theorem weekdayCountsInit_sum : sumValues weekdayCountsInit = 0 := by decide

theorem hourCountsInit_sum : sumValues hourCountsInit = 0 := by
  refine List.sum_eq_zero ?_
  intro x hx
  simp only [hourCountsInit, List.map_map, List.mem_map] at hx
  obtain ⟨i, _, hi⟩ := hx
  simp [← hi, Function.comp]

theorem insightsWeekdayCounts_sum : sumValues insightsWeekdayCounts = 0 := by
  decide

/-- **C2 counterexample**: a parsed record whose key is not one of the fixed
bucket keys (here weekday "8", hour "99") is dropped by the aggregation, so
the per-bucket counts sum to 0 although one record was parsed — for the
weekday, hour-of-day and insights-weekday aggregations alike.  This refutes
"the sum of the per-bucket counts equals the total number of parsed
records". -/
theorem claim2_bucket_sum_counterexample :
    sumValues (aggregateFixed weekdayCountsInit [chars "8"]) = 0 ∧
    sumValues (aggregateFixed insightsWeekdayCounts [chars "8"]) = 0 ∧
    ([chars "8"] : List (List Char)).length = 1 := by
  refine ⟨?_, ?_, rfl⟩ <;> decide

/-- **C2 (amended)**: for any list of parsed records fed into a fixed-key
bucket aggregation (per-weekday in `showCommitsByWeekday`, per-hour in
`showCommitsByHourDay`, per-weekday in `generateInsights`), the sum of the
per-bucket counts equals the number of parsed records whose key is one of the
bucket keys; records with any other key are silently dropped.  In particular
the sum equals the total record count exactly when every record key is a
bucket key. -/
theorem claim2_bucket_sum_eq_valid_records (records : List (List Char)) :
    sumValues (aggregateFixed weekdayCountsInit records) =
      ((records.filter (fun r => (jsGet weekdayCountsInit r).isSome)).length : Int) ∧
    sumValues (aggregateFixed hourCountsInit records) =
      ((records.filter (fun r => (jsGet hourCountsInit r).isSome)).length : Int) ∧
    sumValues (aggregateFixed insightsWeekdayCounts records) =
      ((records.filter (fun r => (jsGet insightsWeekdayCounts r).isSome)).length : Int) := by
  refine ⟨?_, ?_, ?_⟩ <;> rw [sumValues_aggregateFixed]
  · rw [weekdayCountsInit_sum]; ring
  · rw [hourCountsInit_sum]; ring
  · rw [insightsWeekdayCounts_sum]; ring

/-- Every entry of `jsSet m k v` is an entry of `m` or carries the written
value `v`. -/
theorem mem_jsSet {kv' : List Char × Int} {m : List (List Char × Int)}
    {k : List Char} {v : Int} (h : kv' ∈ jsSet m k v) :
    kv' ∈ m ∨ kv'.2 = v := by
  induction m with
  | nil =>
    simp only [jsSet, List.mem_singleton] at h
    right; rw [h]
  | cons kv rest ih =>
    by_cases hk : kv.1 == k
    · rw [jsSet, if_pos hk] at h
      rcases List.mem_cons.mp h with h | h
      · right; rw [h]
      · left; exact List.mem_cons_of_mem kv h
    · rw [jsSet, if_neg hk] at h
      rcases List.mem_cons.mp h with h | h
      · left; rw [h]; exact List.mem_cons_self kv rest
      · rcases ih h with h | h
        · left; exact List.mem_cons_of_mem kv h
        · right; exact h

/-- `jsSet` with a non-negative value preserves non-negativity of all bucket
values. -/
theorem nonneg_jsSet {m : List (List Char × Int)} {k : List Char} {v : Int}
    (hm : ∀ kv ∈ m, 0 ≤ kv.2) (hv : 0 ≤ v) :
    ∀ kv ∈ jsSet m k v, 0 ≤ kv.2 := by
  intro kv hkv
  rcases mem_jsSet hkv with h | h
  · exact hm kv h
  · rw [h]; exact hv

/-- A fixed-key increment preserves non-negativity of all bucket values. -/
theorem nonneg_bumpIfPresent {m : List (List Char × Int)} (k : List Char)
    (hm : ∀ kv ∈ m, 0 ≤ kv.2) :
    ∀ kv ∈ bumpIfPresent m k, 0 ≤ kv.2 := by
  unfold bumpIfPresent
  cases h : jsGet m k with
  | none => exact hm
  | some v =>
    obtain ⟨kv0, hkv0, hv0⟩ := jsGet_mem h
    have : 0 ≤ v := hv0 ▸ hm kv0 hkv0
    exact nonneg_jsSet hm (by omega)

/-- The falsy-check step `if (!counts[k]) { counts[k] = 0; }` preserves
non-negativity. -/
theorem nonneg_ensureBucket {m : List (List Char × Int)} (k : List Char)
    (hm : ∀ kv ∈ m, 0 ≤ kv.2) :
    ∀ kv ∈ ensureBucket m k, 0 ≤ kv.2 := by
  cases h : jsGet m k with
  | none =>
    simp only [ensureBucket, h]
    exact nonneg_jsSet hm le_rfl
  | some v =>
    simp only [ensureBucket, h]
    by_cases hv : v = 0
    · rw [if_pos hv]; exact nonneg_jsSet hm le_rfl
    · rw [if_neg hv]; exact hm

/-- A create-on-demand increment preserves non-negativity of all bucket
values. -/
theorem nonneg_bumpOrCreate {m : List (List Char × Int)} (k : List Char)
    (hm : ∀ kv ∈ m, 0 ≤ kv.2) :
    ∀ kv ∈ bumpOrCreate m k, 0 ≤ kv.2 := by
  unfold bumpOrCreate
  have hm1 := nonneg_ensureBucket k hm
  cases h1 : jsGet (ensureBucket m k) k with
  | none => exact hm1
  | some v =>
    obtain ⟨kv0, hkv0, hv0⟩ := jsGet_mem h1
    have : 0 ≤ v := hv0 ▸ hm1 kv0 hkv0
    exact nonneg_jsSet hm1 (by omega)

/-- Fixed-key aggregation from a non-negative initial state keeps every bucket
value non-negative. -/
theorem nonneg_aggregateFixed (init : List (List Char × Int))
    (records : List (List Char)) (hinit : ∀ kv ∈ init, 0 ≤ kv.2) :
    ∀ kv ∈ aggregateFixed init records, 0 ≤ kv.2 := by
  induction records generalizing init with
  | nil => exact hinit
  | cons r rs ih => exact ih (bumpIfPresent init r) (nonneg_bumpIfPresent r hinit)

/-- Dynamic-key aggregation keeps every bucket value non-negative. -/
theorem nonneg_aggregateDynamicAux (init : List (List Char × Int))
    (records : List (List Char)) (hinit : ∀ kv ∈ init, 0 ≤ kv.2) :
    ∀ kv ∈ records.foldl bumpOrCreate init, 0 ≤ kv.2 := by
  induction records generalizing init with
  | nil => exact hinit
  | cons r rs ih => exact ih (bumpOrCreate init r) (nonneg_bumpOrCreate r hinit)

theorem hourCountsInit_nonneg : ∀ kv ∈ hourCountsInit, 0 ≤ kv.2 := by
  intro kv hkv
  simp only [hourCountsInit, List.mem_map] at hkv
  obtain ⟨i, _, hi⟩ := hkv
  simp [← hi]

theorem hourWeekCountsInit_nonneg : ∀ kv ∈ hourWeekCountsInit, 0 ≤ kv.2 := by
  intro kv hkv
  simp only [hourWeekCountsInit, List.mem_flatten, List.mem_map] at hkv
  obtain ⟨l, ⟨d, _, hl⟩, hkvl⟩ := hkv
  rw [← hl] at hkvl
  simp only [List.mem_map] at hkvl
  obtain ⟨h, _, hkv2⟩ := hkvl
  simp [← hkv2]

/-- **C8**: throughout every aggregation — at initialisation (`k = 0`) and
after every single increment (`k` records processed) — every value stored in
the bucket-count maps of `showCommitsByHourDay` (hour counts),
`showCommitsByHourWeek` (day-hour counts) and `showCommitsByYear` (year
counts) is non-negative. -/
theorem claim8_bucket_counts_nonneg (records : List (List Char)) :
    (∀ k : Nat, ∀ kv ∈ aggregateFixed hourCountsInit (records.take k), 0 ≤ kv.2) ∧
    (∀ k : Nat, ∀ kv ∈ aggregateFixed hourWeekCountsInit (records.take k), 0 ≤ kv.2) ∧
    (∀ k : Nat, ∀ kv ∈ aggregateDynamic (records.take k), 0 ≤ kv.2) := by
  refine ⟨fun k => ?_, fun k => ?_, fun k => ?_⟩
  · exact nonneg_aggregateFixed _ _ hourCountsInit_nonneg
  · exact nonneg_aggregateFixed _ _ hourWeekCountsInit_nonneg
  · exact nonneg_aggregateDynamicAux [] _ (by simp)

/-- **C9**: for every author list parsed from the external tool, the chart of
`showCommitsByAuthor` / `showContributorStats` contains at most 10 label and
10 data entries, namely exactly the first 10 parsed entries in output order —
even when the table itself lists more (table rows are one per parsed entry,
never truncated). -/
theorem claim9_author_chart_top10 (result : List Char) :
    (authorChart result).1.length ≤ 10 ∧
    (authorChart result).2.length ≤ 10 ∧
    (authorChart result).1 = ((authorEntries result).map (fun e => e.2)).take 10 ∧
    (authorChart result).2 = ((authorEntries result).map (fun e => parseIntDec e.1)).take 10 := by
  unfold authorChart
  by_cases h : 10 < ((authorEntries result).map (fun e => e.2)).length
  · rw [if_pos h]
    refine ⟨List.length_take_le 10 _, List.length_take_le 10 _, rfl, rfl⟩
  · rw [if_neg h]
    push_neg at h
    have hd : ((authorEntries result).map (fun e => parseIntDec e.1)).length ≤ 10 := by
      rw [List.length_map] at h ⊢
      exact h
    exact ⟨h, hd, (List.take_of_length_le h).symm, (List.take_of_length_le hd).symm⟩

/-- Every entry of `jsSet m k v` either was in `m` or has key `k`. -/
theorem mem_jsSet_key {kv' : List Char × Int} {m : List (List Char × Int)}
    {k : List Char} {v : Int} (h : kv' ∈ jsSet m k v) :
    kv' ∈ m ∨ kv'.1 = k := by
  induction m with
  | nil =>
    simp only [jsSet, List.mem_singleton] at h
    right; rw [h]
  | cons kv rest ih =>
    by_cases hk : kv.1 == k
    · rw [jsSet, if_pos hk] at h
      rcases List.mem_cons.mp h with h | h
      · right; rw [h]; exact eq_of_beq hk
      · left; exact List.mem_cons_of_mem kv h
    · rw [jsSet, if_neg hk] at h
      rcases List.mem_cons.mp h with h | h
      · left; rw [h]; exact List.mem_cons_self kv rest
      · rcases ih h with h | h
        · left; exact List.mem_cons_of_mem kv h
        · right; exact h

/-- Keys of the git-effort stats fold all come from the processed file list
or from the accumulator. -/
theorem gitEffortStats_keys_sub
    (logOut : List Char → Except (List Char) (List Char)) :
    ∀ (fs : List (List Char)) (acc : List (List Char × Int)),
      ∀ e ∈ fs.foldl (fun stats file =>
          match logOut file with
          | .ok out => jsSet stats file (commitCountOf out)
          | .error _ => stats) acc,
        e ∈ acc ∨ e.1 ∈ fs := by
  intro fs
  induction fs with
  | nil => intro acc e he; exact Or.inl he
  | cons f fs ih =>
    intro acc e he
    simp only [List.foldl_cons] at he
    rcases ih _ e he with h | h
    · cases hlo : logOut f with
      | ok out =>
        rw [hlo] at h
        rcases mem_jsSet_key h with h | h
        · exact Or.inl h
        · exact Or.inr (h ▸ List.mem_cons_self f fs)
      | error _ =>
        rw [hlo] at h
        exact Or.inl h
    · exact Or.inr (List.mem_cons_of_mem f h)

/-- **C10**: the git-effort report processes at most the first 100 tracked
files: every file named in the (sorted) effort table comes from the first 100
entries of the `ls-files` list; when the file list has no duplicates, no file
past the first 100 ever appears in the table; and the insight line reports
the number of files analysed (`min 100 total`) out of the total. -/
theorem claim10_git_effort_first_100 (lsFilesOut : List Char)
    (logOut : List Char → Except (List Char) (List Char)) :
    (∀ e ∈ gitEffortSortedFiles lsFilesOut logOut,
      e.1 ∈ (gitEffortFiles lsFilesOut).take 100) ∧
    ((gitEffortFiles lsFilesOut).Nodup →
      ∀ f ∈ (gitEffortFiles lsFilesOut).drop 100,
        ∀ e ∈ gitEffortSortedFiles lsFilesOut logOut, e.1 ≠ f) ∧
    gitEffortAnalyzedInsight lsFilesOut =
      chars "Analyzed " ++
      natToChars (min 100 (gitEffortFiles lsFilesOut).length) ++
      chars " files out of " ++ natToChars (gitEffortFiles lsFilesOut).length ++
      chars " total files" := by
  have hmem : ∀ e ∈ gitEffortSortedFiles lsFilesOut logOut,
      e.1 ∈ (gitEffortFiles lsFilesOut).take 100 := by
    intro e he
    have he' : e ∈ gitEffortStats lsFilesOut logOut :=
      (jsSort_perm countComparator (gitEffortStats lsFilesOut logOut)).mem_iff.mp he
    rcases gitEffortStats_keys_sub logOut ((gitEffortFiles lsFilesOut).take 100) [] e he' with
      h | h
    · simp at h
    · exact h
  refine ⟨hmem, ?_, ?_⟩
  · intro hnd f hf e he
    intro hef
    have h1 : e.1 ∈ (gitEffortFiles lsFilesOut).take 100 := hmem e he
    exact (List.disjoint_take_drop hnd le_rfl) h1 (hef ▸ hf)
  · unfold gitEffortAnalyzedInsight
    rw [List.length_take]

/-- Witness for C10: a concrete two-file repository where the no-duplicates
hypothesis holds. -/
theorem claim10_git_effort_first_100_witness :
    (gitEffortFiles (chars "a.ts\nb.ts")).Nodup ∧
    (∀ f ∈ (gitEffortFiles (chars "a.ts\nb.ts")).drop 100,
      ∀ e ∈ gitEffortSortedFiles (chars "a.ts\nb.ts")
          (fun _ => Except.ok (chars "c1\nc2")), e.1 ≠ f) :=
  ⟨by decide,
   (claim10_git_effort_first_100 (chars "a.ts\nb.ts")
      (fun _ => Except.ok (chars "c1\nc2"))).2.1 (by decide)⟩

/-- **C4 (code bug)**: when the external tool invocation inside a
user-triggered action throws, `executeCommand` / `executeCustomQuery` show
*no* error notification at all — the `try`/`catch` wraps an un-awaited
`withProgress` thenable, so the rejection escapes unhandled and the `catch`
with its `showErrorMessage` never runs.  The action is abandoned without any
partial panel output (that half of the claim holds), but the claimed single
one-line error notification is not displayed. -/
theorem claim4_error_notification_never_shown :
    executeCommand true (Except.error (chars "git failed")) =
      ⟨[], none, true⟩ ∧
    executeCustomQuery true ⟨chars "mine", chars "log --all"⟩
      (fun _ => Except.error (chars "git failed")) = ⟨[], none, true⟩ :=
  ⟨rfl, rfl⟩

/-- Splitting a string that starts with the separator yields a leading empty
piece. -/
theorem splitOnChar_cons_sep (sep : Char) (rest : List Char) :
    splitOnChar sep (sep :: rest) = [] :: splitOnChar sep rest := by
  simp only [splitOnChar]
  cases h : splitOnChar sep rest with
  | nil => exact absurd h (splitOnChar_ne_nil sep rest)
  | cons p ps => simp

/-- Splitting a string that starts with a non-separator prepends that
character to the first piece. -/
theorem splitOnChar_cons_ne {sep c : Char} (hc : c ≠ sep) (rest : List Char)
    (p : List Char) (ps : List (List Char))
    (hps : splitOnChar sep rest = p :: ps) :
    splitOnChar sep (c :: rest) = (c :: p) :: ps := by
  simp only [splitOnChar, hps]
  simp [hc]

/-- Tokenizer step: a space between tokens is skipped. -/
theorem clTokens_cons_space_none (rest : List Char) :
    clTokens false none (' ' :: rest) = clTokens false none rest := by
  simp [clTokens]

/-- Tokenizer step: a space after a token emits the token. -/
theorem clTokens_cons_space_some (t : List Char) (rest : List Char) :
    clTokens false (some t) (' ' :: rest) = t.reverse :: clTokens false none rest := by
  simp [clTokens]

/-- Tokenizer step: an ordinary character extends the current token. -/
theorem clTokens_cons_char {c : Char} (hc : c ≠ '"') (hs : c ≠ ' ')
    (cur : Option (List Char)) (rest : List Char) :
    clTokens false cur (c :: rest) =
      clTokens false (some (c :: cur.getD [])) rest := by
  cases cur with
  | none => simp [clTokens, hc, hs]
  | some t => simp [clTokens, hc, hs]

/-- On quote-free strings whose space-split pieces past the first are all
nonempty, the command-line tokenizer agrees with splitting on single
spaces. -/
theorem clTokens_split (q : List Char) :
    (∀ c ∈ q, c ≠ '"') →
    (∀ p ∈ (splitOnChar ' ' q).tail, p ≠ []) →
    (∀ acc : List Char,
      clTokens false (some acc) q =
        (acc.reverse ++ (splitOnChar ' ' q).headD []) :: (splitOnChar ' ' q).tail) ∧
    ((splitOnChar ' ' q).headD [] ≠ [] →
      clTokens false none q = splitOnChar ' ' q) := by
  induction q with
  | nil =>
    intro _ _
    constructor
    · intro acc
      simp [clTokens, splitOnChar]
    · intro h
      simp [splitOnChar] at h
  | cons c rest ih =>
    intro hq htail
    have hqr : ∀ x ∈ rest, x ≠ '"' := fun x hx => hq x (List.mem_cons_of_mem c hx)
    have hcq : c ≠ '"' := hq c (List.mem_cons_self c rest)
    by_cases hsp : c = ' '
    · subst hsp
      have hsplit := splitOnChar_cons_sep ' ' rest
      rw [hsplit] at htail
      simp only [List.tail_cons] at htail
      have hrtail : ∀ p ∈ (splitOnChar ' ' rest).tail, p ≠ [] :=
        fun p hp => htail p (List.mem_of_mem_tail hp)
      obtain ⟨ihG, ihH⟩ := ih hqr hrtail
      have hrhead : (splitOnChar ' ' rest).headD [] ≠ [] := by
        cases h : splitOnChar ' ' rest with
        | nil => exact absurd h (splitOnChar_ne_nil ' ' rest)
        | cons p ps =>
          simp only [List.headD_cons]
          exact htail p (h ▸ List.mem_cons_self p ps)
      constructor
      · intro acc
        rw [clTokens_cons_space_some, ihH hrhead, hsplit]
        simp
      · intro hh
        rw [hsplit] at hh
        simp at hh
    · obtain ⟨p, ps, hps⟩ : ∃ p ps, splitOnChar ' ' rest = p :: ps := by
        cases h : splitOnChar ' ' rest with
        | nil => exact absurd h (splitOnChar_ne_nil ' ' rest)
        | cons p ps => exact ⟨p, ps, rfl⟩
      have hsplit : splitOnChar ' ' (c :: rest) = (c :: p) :: ps :=
        splitOnChar_cons_ne hsp rest p ps hps
      rw [hsplit] at htail
      simp only [List.tail_cons] at htail
      obtain ⟨ihG, _⟩ := ih hqr (by rw [hps]; exact htail)
      constructor
      · intro acc
        rw [clTokens_cons_char hcq hsp]
        simp only [Option.getD_some]
        rw [ihG (c :: acc), hps, hsplit]
        simp
      · intro _
        rw [clTokens_cons_char hcq hsp]
        simp only [Option.getD_none]
        rw [ihG [c], hps, hsplit]
        simp

/-- **C6 counterexample**: the saved query `log --format="a b"` contains a
quoted argument with a space; its command line has two tokens, but
`executeCustomQuery` passes the string split on single spaces, producing
three mangled arguments with the quote characters still embedded.  This
refutes "the argument list passed to the external tool is exactly the saved
string's command line, for every possible saved string (including strings
containing quoted arguments with spaces)". -/
theorem claim6_quoted_query_counterexample :
    customQueryArgs (chars "log --format=\"a b\"") ≠
      commandLineTokens (chars "log --format=\"a b\"") ∧
    customQueryArgs (chars "log --format=\"a b\"") =
      [chars "log", chars "--format=\"a", chars "b\""] ∧
    commandLineTokens (chars "log --format=\"a b\"") =
      [chars "log", chars "--format=a b"] :=
  ⟨by decide, by decide, by decide⟩

/-- **C6 (amended)**: executing a saved custom query passes the saved string
split on single space characters as the argument list; this equals the saved
string's command-line tokens only for strings with no double quotes and no
leading, trailing or repeated spaces (so in particular not for quoted
arguments containing spaces). -/
theorem claim6_args_split_on_spaces (q : List Char)
    (hq : ∀ c ∈ q, c ≠ '"')
    (hparts : ∀ p ∈ splitOnChar ' ' q, p ≠ []) :
    customQueryArgs q = commandLineTokens q := by
  have htail : ∀ x ∈ (splitOnChar ' ' q).tail, x ≠ [] :=
    fun x hx => hparts x (List.mem_of_mem_tail hx)
  obtain ⟨_, ihH⟩ := clTokens_split q hq htail
  have hhead : (splitOnChar ' ' q).headD [] ≠ [] := by
    cases h : splitOnChar ' ' q with
    | nil => exact absurd h (splitOnChar_ne_nil ' ' q)
    | cons p ps =>
      simp only [List.headD_cons]
      exact hparts p (h ▸ List.mem_cons_self p ps)
  unfold customQueryArgs commandLineTokens
  exact (ihH hhead).symm

/-- Witness for C6 (amended): a concrete quote-free, single-spaced query. -/
theorem claim6_args_split_on_spaces_witness :
    (∀ c ∈ chars "log --oneline", c ≠ '"') ∧
    (∀ p ∈ splitOnChar ' ' (chars "log --oneline"), p ≠ []) ∧
    customQueryArgs (chars "log --oneline") =
      commandLineTokens (chars "log --oneline") :=
  ⟨by decide, by decide,
   claim6_args_split_on_spaces (chars "log --oneline") (by decide) (by decide)⟩

/-- Pieces of `splitOnChar` never contain the separator. -/
theorem not_mem_splitOnChar (sep : Char) :
    ∀ (s : List Char), ∀ l ∈ splitOnChar sep s, sep ∉ l := by
  intro s
  induction s with
  | nil =>
    intro l hl
    simp only [splitOnChar, List.mem_singleton] at hl
    simp [hl]
  | cons c rest ih =>
    intro l hl
    obtain ⟨p, ps, hps⟩ : ∃ p ps, splitOnChar sep rest = p :: ps := by
      cases h : splitOnChar sep rest with
      | nil => exact absurd h (splitOnChar_ne_nil sep rest)
      | cons p ps => exact ⟨p, ps, rfl⟩
    by_cases hc : c = sep
    · subst hc
      rw [splitOnChar_cons_sep] at hl
      rcases List.mem_cons.mp hl with h | h
      · subst h; simp
      · exact ih l h
    · rw [splitOnChar_cons_ne hc rest p ps hps] at hl
      rcases List.mem_cons.mp hl with h | h
      · subst h
        intro hmem
        rcases List.mem_cons.mp hmem with h | h
        · exact hc h.symm
        · exact ih p (hps ▸ List.mem_cons_self p ps) h
      · exact ih l (hps ▸ List.mem_cons_of_mem p h)

/-- Characters of the pieces of `splitOnChar` come from the original
string. -/
theorem mem_of_mem_splitOnChar {c : Char} (sep : Char) :
    ∀ (s : List Char), ∀ l ∈ splitOnChar sep s, c ∈ l → c ∈ s := by
  intro s
  induction s with
  | nil =>
    intro l hl hc
    simp only [splitOnChar, List.mem_singleton] at hl
    rw [hl] at hc
    simp at hc
  | cons c0 rest ih =>
    intro l hl hc
    obtain ⟨p, ps, hps⟩ : ∃ p ps, splitOnChar sep rest = p :: ps := by
      cases h : splitOnChar sep rest with
      | nil => exact absurd h (splitOnChar_ne_nil sep rest)
      | cons p ps => exact ⟨p, ps, rfl⟩
    by_cases hc0 : c0 = sep
    · subst hc0
      rw [splitOnChar_cons_sep] at hl
      rcases List.mem_cons.mp hl with h | h
      · rw [h] at hc; simp at hc
      · exact List.mem_cons_of_mem c0 (ih l h hc)
    · rw [splitOnChar_cons_ne hc0 rest p ps hps] at hl
      rcases List.mem_cons.mp hl with h | h
      · rw [h] at hc
        rcases List.mem_cons.mp hc with h' | h'
        · rw [h']; exact List.mem_cons_self c0 rest
        · exact List.mem_cons_of_mem c0
            (ih p (hps ▸ List.mem_cons_self p ps) h')
      · exact List.mem_cons_of_mem c0
          (ih l (hps ▸ List.mem_cons_of_mem p h) hc)

/-- Splitting around an explicit separator occurrence. -/
theorem splitOnChar_append (sep : Char) (a b : List Char) (ha : sep ∉ a) :
    splitOnChar sep (a ++ sep :: b) = a :: splitOnChar sep b := by
  induction a with
  | nil =>
    simp only [List.nil_append]
    exact splitOnChar_cons_sep sep b
  | cons c a' ih =>
    have hc : c ≠ sep := fun h => ha (h ▸ List.mem_cons_self c a')
    have ha' : sep ∉ a' := fun h => ha (List.mem_cons_of_mem c h)
    simp only [List.cons_append]
    rw [splitOnChar_cons_ne hc (a' ++ sep :: b) a' (splitOnChar sep b) (ih ha')]

/-- The appending fold of the report loops, written as a concatenation. -/
theorem foldl_append_flatten {α : Type} (g : α → List Char) :
    ∀ (l : List α) (init : List Char),
      l.foldl (fun out x => out ++ g x) init = init ++ (l.map g).flatten := by
  intro l
  induction l with
  | nil => intro init; simp
  | cons x xs ih =>
    intro init
    simp only [List.foldl_cons, List.map_cons, List.flatten_cons]
    rw [ih, List.append_assoc]

/-- Splitting a concatenation of newline-terminated rows recovers exactly
the rows (plus the empty piece after the final newline). -/
theorem splitOnChar_flatten_rows (sep : Char) :
    ∀ (rows : List (List Char)), (∀ r ∈ rows, sep ∉ r) →
      splitOnChar sep ((rows.map (fun r => r ++ [sep])).flatten) = rows ++ [[]] := by
  intro rows
  induction rows with
  | nil => intro _; simp [splitOnChar]
  | cons r rs ih =>
    intro h
    have hr : sep ∉ r := h r (List.mem_cons_self r rs)
    simp only [List.map_cons, List.flatten_cons, List.append_assoc,
      List.singleton_append]
    rw [splitOnChar_append sep r _ hr,
      ih (fun x hx => h x (List.mem_cons_of_mem r hx))]
    rfl

/-- The author-report loop emits exactly the newline-terminated rows of the
matching lines, in order. -/
theorem authorRows_flatten (lines : List (List Char)) :
    (lines.map authorRowRender).flatten =
      (((lines.filterMap parseShortlogLine).map authorRow).map
        (fun r => r ++ ['\n'])).flatten := by
  induction lines with
  | nil => rfl
  | cons l ls ih =>
    simp only [List.map_cons, List.flatten_cons, List.filterMap_cons]
    cases h : parseShortlogLine l with
    | none => simp [authorRowRender, h, ih]
    | some e => simp [authorRowRender, h, ih]

/-- Output lines produced by `gitLines` contain no newline. -/
theorem gitLines_no_newline (result : List Char) :
    ∀ line ∈ gitLines result, '\n' ∉ line :=
  fun line hl =>
    not_mem_splitOnChar '\n' result line (List.mem_of_mem_filter hl)

/-- `getLastD` of a nonempty list is a member. -/
theorem getLastD_mem (l : List Char) (d : Char) (h : l ≠ []) :
    l.getLastD d ∈ l := by
  induction l generalizing d with
  | nil => exact absurd rfl h
  | cons x t ih =>
    rw [List.getLastD_cons]
    cases ht : t with
    | nil => simp [List.getLastD]
    | cons y t' =>
      exact List.mem_cons_of_mem x (ht ▸ ih x (by simp [ht]))

/-- Both captures of the shortlog regex consist of characters of the input
line. -/
theorem parseShortlogLine_mem {line : List Char} {e : List Char × List Char}
    (h : parseShortlogLine line = some e) :
    (∀ c ∈ e.1, c ∈ line) ∧ (∀ c ∈ e.2, c ∈ line) := by
  have hds : (((line.dropWhile jsWS).takeWhile Char.isDigit)).Sublist line :=
    (List.takeWhile_sublist _).trans (List.dropWhile_sublist _)
  have ht : (line.dropWhile jsWS).Sublist line := List.dropWhile_sublist _
  simp only [parseShortlogLine] at h
  split_ifs at h with h1 h2 h3 h4
  · -- r ≠ [] branch
    rw [Option.some.injEq] at h
    subst h
    constructor
    · intro c hc
      exact ((List.takeWhile_sublist _).trans ht).mem hc
    · intro c hc
      have : c ∈ (line.dropWhile jsWS).drop
          ((line.dropWhile jsWS).takeWhile Char.isDigit).length :=
        List.mem_of_mem_drop hc
      exact ht.mem (List.mem_of_mem_drop this)
  · -- backtracking branch: author is the last whitespace character
    rw [Option.some.injEq] at h
    subst h
    constructor
    · intro c hc
      exact ((List.takeWhile_sublist _).trans ht).mem hc
    · intro c hc
      simp only [List.mem_singleton] at hc
      subst hc
      have hw : (((line.dropWhile jsWS).drop
          ((line.dropWhile jsWS).takeWhile Char.isDigit).length).takeWhile jsWS) ≠ [] := by
        intro hnil
        rw [hnil] at h4
        simp at h4
      have hmem := getLastD_mem _ ' ' hw
      have : (((line.dropWhile jsWS).drop
          ((line.dropWhile jsWS).takeWhile Char.isDigit).length).takeWhile jsWS).Sublist line :=
        ((List.takeWhile_sublist _).trans (List.drop_sublist _ _)).trans ht
      exact this.mem hmem

/-- `joinSep` of newline-free pieces with a newline-free separator is
newline-free. -/
theorem not_mem_joinSep {c : Char} (sep : List Char) (hs : c ∉ sep) :
    ∀ (ls : List (List Char)), (∀ l ∈ ls, c ∉ l) → c ∉ joinSep sep ls := by
  intro ls
  induction ls with
  | nil => intro _; simp [joinSep]
  | cons x xs ih =>
    intro h
    cases xs with
    | nil => simpa [joinSep] using h x (List.mem_cons_self x [])
    | cons y ys =>
      simp only [joinSep, List.append_assoc, List.mem_append]
      push_neg
      refine ⟨h x (List.mem_cons_self x _), hs, ?_⟩
      exact ih (fun l hl => h l (List.mem_cons_of_mem x hl))

/-- A changelog table row contains no newline when the underlying output line
does not. -/
theorem changelogRow_no_newline {line : List Char} (h : '\n' ∉ line) :
    '\n' ∉ changelogRow line := by
  have hparts : ∀ p ∈ splitOnChar ' ' line, '\n' ∉ p := fun p hp hc =>
    h (mem_of_mem_splitOnChar ' ' line p hp hc)
  have hidx : ∀ i : Int, '\n' ∉ jsIndexStr (splitOnChar ' ' line) i := by
    intro i
    unfold jsIndexStr
    split
    · next hin =>
      exact hparts _ (List.get_mem _ _ _)
    · decide
  have hmsg : '\n' ∉ joinSep (chars " ")
      (((splitOnChar ' ' line).take ((splitOnChar ' ' line).length - 2)).drop 1) := by
    refine not_mem_joinSep _ (by decide) _ ?_
    intro p hp
    exact hparts p ((List.take_sublist _ _).mem (List.mem_of_mem_drop hp))
  unfold changelogRow
  intro hc
  simp only [List.append_assoc, List.mem_append] at hc
  rcases hc with hc | hc | hc | hc | hc | hc | hc
  · exact hidx 0 hc
  · revert hc; decide
  · exact hmsg hc
  · revert hc; decide
  · exact hidx _ hc
  · revert hc; decide
  · exact hidx _ hc

/-- An author table row contains no newline when the underlying output line
does not. -/
theorem authorRow_no_newline {line : List Char} {e : List Char × List Char}
    (h : '\n' ∉ line) (hp : parseShortlogLine line = some e) :
    '\n' ∉ authorRow e := by
  obtain ⟨h1, h2⟩ := parseShortlogLine_mem hp
  unfold authorRow
  intro hc
  simp only [List.append_assoc, List.mem_append] at hc
  rcases hc with hc | hc | hc
  · exact h (h2 _ hc)
  · revert hc; decide
  · exact h (h1 _ hc)

/-- **C7**: the tables built directly from the external tool's output lines —
the commits-by-author table of `getCommitsByAuthorRaw` and the changelog
table of `showChangelog` — list their rows in exactly the order the tool
produced the lines: after the two header lines, the produced content consists
of one row per (matching) output line, mapped in order, with no
reordering. -/
theorem claim7_rows_in_tool_order (result : List Char) :
    splitOnChar '\n' (commitsByAuthorContent result) =
      chars "Author | Commits" :: chars "-------|--------" ::
        (((gitLines result).filterMap parseShortlogLine).map authorRow ++ [[]]) ∧
    splitOnChar '\n' (showChangelogContent result) =
      chars "Commit | Message | Author | Date" ::
        chars "-------|---------|--------|-----" ::
        ((gitLines result).map changelogRow ++ [[]]) := by
  constructor
  · unfold commitsByAuthorContent
    rw [foldl_append_flatten]
    have hinit : chars "Author | Commits\n-------|--------\n" ++
        ((gitLines result).map authorRowRender).flatten =
        chars "Author | Commits" ++ '\n' ::
          (chars "-------|--------" ++ '\n' ::
            ((gitLines result).map authorRowRender).flatten) := rfl
    rw [hinit, splitOnChar_append '\n' (chars "Author | Commits") _ (by decide),
      splitOnChar_append '\n' (chars "-------|--------") _ (by decide),
      authorRows_flatten,
      splitOnChar_flatten_rows '\n' _ ?_]
    intro r hr
    simp only [List.mem_map] at hr
    obtain ⟨e, he, her⟩ := hr
    simp only [List.mem_filterMap] at he
    obtain ⟨line, hline, hpe⟩ := he
    exact her ▸ authorRow_no_newline (gitLines_no_newline result line hline) hpe
  · unfold showChangelogContent
    rw [foldl_append_flatten]
    have hinit : chars "Commit | Message | Author | Date\n-------|---------|--------|-----\n" ++
        ((gitLines result).map (fun line => changelogRow line ++ ['\n'])).flatten =
        chars "Commit | Message | Author | Date" ++ '\n' ::
          (chars "-------|---------|--------|-----" ++ '\n' ::
            ((gitLines result).map (fun line => changelogRow line ++ ['\n'])).flatten) := rfl
    rw [hinit,
      splitOnChar_append '\n' (chars "Commit | Message | Author | Date") _ (by decide),
      splitOnChar_append '\n' (chars "-------|---------|--------|-----") _ (by decide)]
    have hmap : (gitLines result).map (fun line => changelogRow line ++ ['\n']) =
        ((gitLines result).map changelogRow).map (fun r => r ++ ['\n']) := by
      rw [List.map_map]; rfl
    rw [hmap, splitOnChar_flatten_rows '\n' _ ?_]
    intro r hr
    simp only [List.mem_map] at hr
    obtain ⟨line, hline, hlr⟩ := hr
    exact hlr ▸ changelogRow_no_newline (gitLines_no_newline result line hline)

/-! ### Soundness of the regex scan machinery -/

/-- A found alternative is one of the alternatives and a prefix of the
input. -/
theorem findAlt_mem_of_some {alts : List (List Char)} {s a : List Char}
    (h : findAlt alts s = some a) : a ∈ alts ∧ a <+: s := by
  unfold findAlt at h
  exact ⟨List.mem_of_find?_eq_some h,
    List.isPrefixOf_iff_prefix.mp
      (@List.find?_some _ (fun a => a.isPrefixOf s) a alts h)⟩

/-- A successful lazy scan decomposes the input. -/
theorem lazyUpto_sound {closes : List (List Char)} {dotAll : Bool} :
    ∀ {s content cl tail : List Char},
      lazyUpto closes dotAll s = some (content, cl, tail) →
      s = content ++ cl ++ tail ∧ content ≠ [] := by
  intro s
  induction s with
  | nil => intro content cl tail h; simp [lazyUpto] at h
  | cons c s' ih =>
    intro content cl tail h
    simp only [lazyUpto] at h
    split at h
    · exact absurd h (by simp)
    · cases hf : findAlt closes s' with
      | some cl' =>
        rw [hf] at h
        simp only [Option.some.injEq, Prod.mk.injEq] at h
        obtain ⟨hc, hcl, htl⟩ := h
        have hpre : cl' <+: s' := (findAlt_mem_of_some hf).2
        have hs' : cl' ++ s'.drop cl'.length = s' :=
          List.prefix_iff_eq_append.mp hpre
        subst hc hcl htl
        constructor
        · rw [← hs']
          simp
        · simp
      | none =>
        rw [hf] at h
        cases hl : lazyUpto closes dotAll s' with
        | none => rw [hl] at h; simp at h
        | some trip =>
          obtain ⟨ct', cl', tl'⟩ := trip
          rw [hl] at h
          simp only [Option.some.injEq, Prod.mk.injEq] at h
          obtain ⟨hc, hcl, htl⟩ := h
          obtain ⟨hdec, hne⟩ := ih hl
          subst hc hcl htl
          constructor
          · rw [hdec]; simp
          · simp

/-- A successful match attempt decomposes the input, and the match is
nonempty. -/
theorem tryMatchAt_sound {opens closes : List (List Char)} {dotAll : Bool}
    {s m ct tail : List Char}
    (h : tryMatchAt opens closes dotAll s = some (m, ct, tail)) :
    s = m ++ tail ∧ m ≠ [] := by
  unfold tryMatchAt at h
  cases hf : findAlt opens s with
  | none => rw [hf] at h; simp at h
  | some op =>
    rw [hf] at h
    cases hl : lazyUpto closes dotAll (s.drop op.length) with
    | none => simp [hl] at h
    | some trip =>
      obtain ⟨ct', cl', tl'⟩ := trip
      simp only [hl, Option.some.injEq, Prod.mk.injEq] at h
      obtain ⟨hm, hct, htl⟩ := h
      have hpre : op <+: s := (findAlt_mem_of_some hf).2
      have hs : op ++ s.drop op.length = s := List.prefix_iff_eq_append.mp hpre
      obtain ⟨hdec, hne⟩ := lazyUpto_sound hl
      subst hm hct htl
      constructor
      · rw [← hs, hdec]
        simp
      · intro hcontra
        rcases List.append_eq_nil.mp hcontra with ⟨h1, -⟩
        rcases List.append_eq_nil.mp h1 with ⟨-, h2⟩
        exact hne h2

/-- No match can start at the end of the input. -/
theorem tryMatchAt_nil (opens closes : List (List Char)) (dotAll : Bool) :
    tryMatchAt opens closes dotAll [] = none := by
  unfold tryMatchAt
  cases hf : findAlt opens [] with
  | none => rfl
  | some op => simp [lazyUpto]

/-- `scanF` does not depend on the fuel once the fuel covers the input
length. -/
theorem scanF_congr (opens closes : List (List Char)) (dotAll : Bool) :
    ∀ (f1 : Nat) (s : List Char) (f2 : Nat), s.length ≤ f1 → s.length ≤ f2 →
      scanF opens closes dotAll f1 s = scanF opens closes dotAll f2 s := by
  intro f1
  induction f1 with
  | zero =>
    intro s f2 h1 _
    have hs : s = [] := List.eq_nil_of_length_eq_zero (Nat.le_zero.mp h1)
    subst hs
    cases f2 <;> rfl
  | succ f1 ih =>
    intro s f2 h1 h2
    cases s with
    | nil => cases f2 <;> rfl
    | cons c s' =>
      cases f2 with
      | zero => simp at h2
      | succ f2' =>
        simp only [List.length_cons] at h1 h2
        cases ht : tryMatchAt opens closes dotAll (c :: s') with
        | none =>
          simp only [scanF, ht]
          exact ih s' f2' (by simpa using h1) (by simpa using h2)
        | some trip =>
          obtain ⟨m, ct, tl⟩ := trip
          obtain ⟨hs, hm⟩ := tryMatchAt_sound ht
          have hlen : tl.length ≤ s'.length := by
            have := congrArg List.length hs
            simp only [List.length_cons, List.length_append] at this
            cases m with
            | nil => exact absurd rfl hm
            | cons _ _ => simp [List.length_cons] at this; omega
          simp only [scanF, ht]
          rw [ih tl f2' (by omega) (by omega)]

/-- Scan step: no match at this position — move one character right. -/
theorem jsMatchAll_cons_none {opens closes : List (List Char)} {dotAll : Bool}
    {c : Char} {s : List Char}
    (h : tryMatchAt opens closes dotAll (c :: s) = none) :
    jsMatchAll opens closes dotAll (c :: s) = jsMatchAll opens closes dotAll s := by
  unfold jsMatchAll
  simp only [List.length_cons, scanF, h]

/-- Scan step: a match at this position is emitted and the scan continues
right after it. -/
theorem jsMatchAll_cons_some {opens closes : List (List Char)} {dotAll : Bool}
    {s m ct tail : List Char}
    (h : tryMatchAt opens closes dotAll s = some (m, ct, tail)) :
    jsMatchAll opens closes dotAll s = m :: jsMatchAll opens closes dotAll tail := by
  cases s with
  | nil => rw [tryMatchAt_nil] at h; cases h
  | cons c s' =>
    obtain ⟨hs, hm⟩ := tryMatchAt_sound h
    have hlen : tail.length ≤ s'.length := by
      have := congrArg List.length hs
      simp only [List.length_cons, List.length_append] at this
      cases m with
      | nil => exact absurd rfl hm
      | cons _ _ => simp [List.length_cons] at this; omega
    unfold jsMatchAll
    simp only [List.length_cons, scanF, h]
    congr 1
    exact scanF_congr opens closes dotAll s'.length tail tail.length hlen le_rfl

/-- `replF` does not depend on the fuel once the fuel covers the input
length. -/
theorem replF_congr (opens closes : List (List Char)) (dotAll : Bool) :
    ∀ (f1 : Nat) (s : List Char) (f2 : Nat), s.length ≤ f1 → s.length ≤ f2 →
      replF opens closes dotAll f1 s = replF opens closes dotAll f2 s := by
  intro f1
  induction f1 with
  | zero =>
    intro s f2 h1 _
    have hs : s = [] := List.eq_nil_of_length_eq_zero (Nat.le_zero.mp h1)
    subst hs
    cases f2 <;> rfl
  | succ f1 ih =>
    intro s f2 h1 h2
    cases s with
    | nil => cases f2 <;> rfl
    | cons c s' =>
      cases f2 with
      | zero => simp at h2
      | succ f2' =>
        simp only [List.length_cons] at h1 h2
        cases ht : tryMatchAt opens closes dotAll (c :: s') with
        | none =>
          simp only [replF, ht]
          rw [ih s' f2' (by simpa using h1) (by simpa using h2)]
        | some trip =>
          obtain ⟨m, ct, tl⟩ := trip
          obtain ⟨hs, hm⟩ := tryMatchAt_sound ht
          have hlen : tl.length ≤ s'.length := by
            have := congrArg List.length hs
            simp only [List.length_cons, List.length_append] at this
            cases m with
            | nil => exact absurd rfl hm
            | cons _ _ => simp [List.length_cons] at this; omega
          simp only [replF, ht]
          rw [ih tl f2' (by omega) (by omega)]

/-- Replace step: no match at this position — keep the character. -/
theorem jsReplaceAll_cons_none {opens closes : List (List Char)} {dotAll : Bool}
    {c : Char} {s : List Char}
    (h : tryMatchAt opens closes dotAll (c :: s) = none) :
    jsReplaceAll opens closes dotAll (c :: s) =
      c :: jsReplaceAll opens closes dotAll s := by
  unfold jsReplaceAll
  simp only [List.length_cons, replF, h]

/-- Replace step: a match is replaced by its capture. -/
theorem jsReplaceAll_cons_some {opens closes : List (List Char)} {dotAll : Bool}
    {s m ct tail : List Char}
    (h : tryMatchAt opens closes dotAll s = some (m, ct, tail)) :
    jsReplaceAll opens closes dotAll s =
      ct ++ jsReplaceAll opens closes dotAll tail := by
  cases s with
  | nil => rw [tryMatchAt_nil] at h; cases h
  | cons c s' =>
    obtain ⟨hs, hm⟩ := tryMatchAt_sound h
    have hlen : tail.length ≤ s'.length := by
      have := congrArg List.length hs
      simp only [List.length_cons, List.length_append] at this
      cases m with
      | nil => exact absurd rfl hm
      | cons _ _ => simp [List.length_cons] at this; omega
    unfold jsReplaceAll
    simp only [List.length_cons, replF, h]
    congr 1
    exact replF_congr opens closes dotAll s'.length tail tail.length hlen le_rfl

/-- A prefix of an append either stays within the left part or covers it. -/
theorem prefix_append_cases {a x y : List Char} (h : a <+: x ++ y) :
    (a.length ≤ x.length ∧ a <+: x) ∨
    (x.length < a.length ∧ a.take x.length = x ∧ a.drop x.length <+: y) := by
  by_cases hlen : a.length ≤ x.length
  · left
    refine ⟨hlen, ?_⟩
    have h1 := List.prefix_iff_eq_take.mp h
    rw [List.take_append_of_le_length hlen] at h1
    rw [h1]
    exact List.take_prefix a.length x
  · right
    push_neg at hlen
    refine ⟨hlen, ?_, ?_⟩
    · have h1 := List.prefix_iff_eq_take.mp h
      rw [h1, List.take_take]
      rw [show x.length ⊓ a.length = x.length from by omega]
      exact List.take_left x y
    · obtain ⟨t, ht⟩ := h
      refine ⟨t, ?_⟩
      have hdx := congrArg (List.drop x.length) ht
      rw [List.drop_append_of_le_length (by omega), List.drop_left] at hdx
      exact hdx

/-- An infix of an append either lies within one part or straddles the
boundary, splitting into a nonempty suffix-of-the-left and a nonempty
prefix-of-the-right piece. -/
theorem infix_append_cases {a x y : List Char} (h : a <:+: x ++ y) :
    a <:+: x ∨ a <:+: y ∨
      ∃ n, 0 < n ∧ n < a.length ∧ a.take n <:+ x ∧ a.drop n <+: y := by
  obtain ⟨s, t, hst⟩ := h
  by_cases h1 : x.length ≤ s.length
  · right; left
    have htk := congrArg (List.take x.length) hst
    rw [List.append_assoc, List.take_append_of_le_length h1,
      List.take_left] at htk
    have hsplit : s = x ++ s.drop x.length := by
      conv_lhs => rw [← List.take_append_drop x.length s]
      rw [htk]
    rw [hsplit] at hst
    have hy : s.drop x.length ++ a ++ t = y := by
      apply @List.append_cancel_left _ x
      rw [← hst]
      simp [List.append_assoc]
    exact ⟨s.drop x.length, t, hy⟩
  · by_cases h2 : s.length + a.length ≤ x.length
    · left
      have htk := congrArg (List.take (s.length + a.length)) hst
      rw [show s.length + a.length = (s ++ a).length by simp] at htk
      rw [List.take_left] at htk
      rw [show ((s ++ a).length : Nat) = s.length + a.length by simp] at htk
      rw [List.take_append_of_le_length h2] at htk
      have hpre : s ++ a <+: x := by
        rw [htk]
        exact List.take_prefix _ x
      obtain ⟨r, hr⟩ := hpre
      exact ⟨s, r, by rw [← hr]⟩
    · right; right
      push_neg at h1 h2
      refine ⟨x.length - s.length, by omega, by omega, ?_, ?_⟩
      · have htk := congrArg (List.take x.length) hst
        rw [List.take_left] at htk
        rw [show x.length = s.length + (x.length - s.length) by omega,
          List.append_assoc, List.take_append,
          List.take_append_of_le_length (by omega)] at htk
        exact ⟨s, htk⟩
      · have hdr := congrArg (List.drop x.length) hst
        rw [List.drop_left] at hdr
        rw [show x.length = s.length + (x.length - s.length) by omega,
          List.append_assoc, List.drop_append,
          List.drop_append_of_le_length (by omega)] at hdr
        exact ⟨t, hdr⟩

/-- For a tag-like pattern `a`, a proper nonempty tail-piece of `a` cannot be
a prefix of a string that starts with `<` (or is empty): the piece would have
to start with `<`, but `<` occurs only at the head of `a`. -/
theorem tag_drop_not_pre {a y : List Char} (ha : tagLike a) (n : Nat)
    (hn0 : 0 < n) (hnlen : n < a.length)
    (hyh : ∀ c, y.head? = some c → c = '<')
    (hpre : a.drop n <+: y) : False := by
  have hdne : a.drop n ≠ [] := by
    intro hnil
    have := congrArg List.length hnil
    simp [List.length_drop] at this
    omega
  cases hdrop : a.drop n with
  | nil => exact hdne hdrop
  | cons c0 w =>
    have hy : y.head? = some c0 := by
      obtain ⟨t, ht⟩ := hpre
      rw [← ht, hdrop]
      rfl
    have hc0 : c0 = '<' := hyh c0 hy
    have hcmem : c0 ∈ a.tail := by
      cases a with
      | nil => simp at hnlen
      | cons ah at' =>
        have hdt : (ah :: at').drop n = at'.drop (n - 1) := by
          cases n with
          | zero => omega
          | succ n' => simp [List.drop_succ_cons]
        rw [hdt] at hdrop
        have : c0 ∈ at'.drop (n - 1) := by
          rw [hdrop]
          exact List.mem_cons_self c0 w
        simpa [List.tail_cons] using List.mem_of_mem_drop this
    exact (ha.2.2 c0 hcmem) hc0

/-- A tag-like pattern occurs in `x ++ y` only if it occurs in `x` or in `y`,
provided `y` starts with `<` (or is empty). -/
theorem tag_not_infix_append_head {a x y : List Char} (ha : tagLike a)
    (hyh : ∀ c, y.head? = some c → c = '<')
    (hx : ¬ a <:+: x) (hy : ¬ a <:+: y) : ¬ a <:+: x ++ y := by
  intro h
  rcases infix_append_cases h with h | h | ⟨n, hn0, hnlen, _, hpre⟩
  · exact hx h
  · exact hy h
  · exact tag_drop_not_pre ha n hn0 hnlen hyh hpre

/-- A pattern occurs in `x ++ y` only if it occurs in `x` or in `y`, provided
no proper nonempty prefix of the pattern is a suffix of `x` (decidable for
concrete `x`). -/
theorem not_infix_append_take {a x y : List Char}
    (hstr : ∀ n, n < a.length → 0 < n → ¬ (a.take n <:+ x))
    (hx : ¬ a <:+: x) (hy : ¬ a <:+: y) : ¬ a <:+: x ++ y := by
  intro h
  rcases infix_append_cases h with h | h | ⟨n, hn0, hnlen, hsuf, _⟩
  · exact hx h
  · exact hy h
  · exact hstr n hnlen hn0 hsuf

/-- No tag alternative can match at any position strictly inside a string `t`
free of the alternatives, followed by a string starting with `<`: this is why
the lazy `(.+?)` scan runs to exactly the intended closing tag. -/
theorem find_prefix_none (alts : List (List Char)) (t v rest : List Char)
    (halts : ∀ a ∈ alts, tagLike a)
    (hinf : ∀ a ∈ alts, ¬ a <:+: t)
    (hrest : ∀ c, rest.head? = some c → c = '<')
    (hv : v <:+ t) (hvne : v ≠ []) :
    findAlt alts (v ++ rest) = none := by
  unfold findAlt
  rw [List.find?_eq_none]
  intro a ha hpre
  have hpre' : a <+: v ++ rest := List.isPrefixOf_iff_prefix.mp hpre
  rcases prefix_append_cases hpre' with ⟨_, hp⟩ | ⟨hlen, htake, hdrop⟩
  · apply hinf a ha
    obtain ⟨w, hw⟩ := hp
    obtain ⟨u, hu⟩ := hv
    exact ⟨u, w, by rw [← hu, ← hw]; simp [List.append_assoc]⟩
  · have hfalse : a.drop v.length <+: rest → False := by
      intro hp
      refine tag_drop_not_pre (halts a ha) v.length ?_ hlen hrest hp
      cases v with
      | nil => exact absurd rfl hvne
      | cons _ _ => simp
    exact hfalse hdrop

/-- One-step unfolding of `lazyUpto` on a cons. -/
theorem lazyUpto_cons (closes : List (List Char)) (dotAll : Bool) (c : Char)
    (s : List Char) :
    lazyUpto closes dotAll (c :: s) =
      (if dotAll = false ∧ c = '\n' then none
      else
        match findAlt closes s with
        | some cl => some ([c], cl, s.drop cl.length)
        | none =>
          match lazyUpto closes dotAll s with
          | some (content, cl, tail) => some (c :: content, cl, tail)
          | none => none) := rfl

/-- The lazy `(.+?)` scan over a close-free text stops exactly at the close
alternative that follows it. -/
theorem lazyUpto_exact (closes : List (List Char)) (dotAll : Bool) :
    ∀ (text : List Char) {rest cl : List Char},
      text ≠ [] →
      (∀ c ∈ text, dotAll = true ∨ c ≠ '\n') →
      findAlt closes rest = some cl →
      (∀ v, v <:+ text → v.length < text.length → v ≠ [] →
        findAlt closes (v ++ rest) = none) →
      lazyUpto closes dotAll (text ++ rest) =
        some (text, cl, rest.drop cl.length) := by
  intro text
  induction text with
  | nil => intro rest cl hne _ _ _; exact absurd rfl hne
  | cons c t ih =>
    intro rest cl _ hok hfind hnc
    have hokc : ¬ (dotAll = false ∧ c = '\n') := by
      rcases hok c (List.mem_cons_self c t) with h | h
      · rintro ⟨h1, -⟩; rw [h] at h1; cases h1
      · rintro ⟨-, h2⟩; exact h h2
    cases t with
    | nil =>
      show lazyUpto closes dotAll (c :: rest) = _
      simp only [lazyUpto, if_neg hokc, hfind]
    | cons c2 t2 =>
      have hstep : findAlt closes ((c2 :: t2) ++ rest) = none :=
        hnc (c2 :: t2) (List.suffix_cons c (c2 :: t2)) (by simp) (by simp)
      have hX := @ih rest cl (by simp)
        (fun x hx => hok x (List.mem_cons_of_mem c hx)) hfind
        (fun v hv hlen hne =>
          hnc v (hv.trans (List.suffix_cons c (c2 :: t2)))
            (by simp only [List.length_cons] at hlen ⊢; omega) hne)
      have h1 : lazyUpto closes dotAll (c :: ((c2 :: t2) ++ rest)) =
          (match lazyUpto closes dotAll ((c2 :: t2) ++ rest) with
           | some (content, cl', tail) => some (c :: content, cl', tail)
           | none => none) := by
        rw [lazyUpto_cons, if_neg hokc, hstep]
      show lazyUpto closes dotAll (c :: ((c2 :: t2) ++ rest)) = _
      rw [h1, hX]

/-- Positions inside a region free of open alternatives produce no match. -/
theorem jsMatchAll_junk_aux (opens closes : List (List Char)) (dotAll : Bool)
    (x b : List Char)
    (halts : ∀ a ∈ opens, tagLike a)
    (hinf : ∀ a ∈ opens, ¬ a <:+: x)
    (hb : ∀ c, b.head? = some c → c = '<') :
    ∀ v, v <:+ x →
      jsMatchAll opens closes dotAll (v ++ b) =
        jsMatchAll opens closes dotAll b := by
  intro v
  induction v with
  | nil => intro _; rw [List.nil_append]
  | cons c v' ih =>
    intro hv
    have hfa : findAlt opens ((c :: v') ++ b) = none :=
      find_prefix_none opens x (c :: v') b halts hinf hb hv (by simp)
    have htm : tryMatchAt opens closes dotAll (c :: (v' ++ b)) = none := by
      unfold tryMatchAt
      rw [show c :: (v' ++ b) = (c :: v') ++ b from rfl, hfa]
    rw [List.cons_append, jsMatchAll_cons_none htm]
    exact ih ((List.suffix_cons c v').trans hv)

/-- Skipping a junk region at the start of the scan. -/
theorem jsMatchAll_junk (opens closes : List (List Char)) (dotAll : Bool)
    (x b : List Char)
    (halts : ∀ a ∈ opens, tagLike a)
    (hinf : ∀ a ∈ opens, ¬ a <:+: x)
    (hb : ∀ c, b.head? = some c → c = '<') :
    jsMatchAll opens closes dotAll (x ++ b) =
      jsMatchAll opens closes dotAll b :=
  jsMatchAll_junk_aux opens closes dotAll x b halts hinf hb x List.suffix_rfl

/-- The global scan over a concatenation of well-formed `op text cl` blocks
followed by an open-free suffix returns exactly the blocks, in order. -/
theorem jsMatchAll_blocks (opens closes : List (List Char)) (dotAll : Bool)
    (op cl sfx : List Char)
    (hcalts : ∀ a ∈ closes, tagLike a)
    (halts : ∀ a ∈ opens, tagLike a)
    (hfop : ∀ r, findAlt opens (op ++ r) = some op)
    (hfcl : ∀ r, findAlt closes (cl ++ r) = some cl)
    (hclh : cl.head? = some '<')
    (hsfx : ∀ a ∈ opens, ¬ a <:+: sfx) :
    ∀ (cells : List (List Char)),
      (∀ t ∈ cells, t ≠ [] ∧ (∀ c ∈ t, dotAll = true ∨ c ≠ '\n') ∧
        ∀ a ∈ closes, ¬ a <:+: t) →
      jsMatchAll opens closes dotAll
        ((cells.map (fun t => op ++ t ++ cl)).flatten ++ sfx) =
        cells.map (fun t => op ++ t ++ cl) := by
  intro cells
  induction cells with
  | nil =>
    intro _
    simp only [List.map_nil, List.flatten_nil, List.nil_append]
    have hj := jsMatchAll_junk opens closes dotAll sfx [] halts hsfx
      (by intro c hc; simp at hc)
    rw [List.append_nil] at hj
    rw [hj]
    rfl
  | cons t cells ih =>
    intro hcells
    obtain ⟨htne, htok, htinf⟩ := hcells t (List.mem_cons_self t cells)
    have hclrest : ∀ (z : List Char) (c : Char),
        (cl ++ z).head? = some c → c = '<' := by
      intro z c hc
      cases cl with
      | nil => simp at hclh
      | cons c0 w =>
        simp only [List.head?_cons, Option.some.injEq] at hclh
        simp only [List.cons_append, List.head?_cons, Option.some.injEq] at hc
        rw [← hc, hclh]
    have hlz : lazyUpto closes dotAll
        (t ++ (cl ++ ((cells.map (fun t => op ++ t ++ cl)).flatten ++ sfx))) =
        some (t, cl, (cells.map (fun t => op ++ t ++ cl)).flatten ++ sfx) := by
      have h1 := @lazyUpto_exact closes dotAll t
        (cl ++ ((cells.map (fun t => op ++ t ++ cl)).flatten ++ sfx)) cl htne htok
        (hfcl _)
        (fun v hv hlen hne =>
          find_prefix_none closes t v _ hcalts htinf (hclrest _) hv hne)
      rwa [List.drop_left] at h1
    have htm : tryMatchAt opens closes dotAll
        (op ++ (t ++ (cl ++ ((cells.map (fun t => op ++ t ++ cl)).flatten ++ sfx)))) =
        some (op ++ t ++ cl, t, (cells.map (fun t => op ++ t ++ cl)).flatten ++ sfx) := by
      unfold tryMatchAt
      rw [hfop]
      simp only [List.drop_left, hlz]
    have hshape : (((t :: cells).map (fun t => op ++ t ++ cl)).flatten ++ sfx) =
        op ++ (t ++ (cl ++ ((cells.map (fun t => op ++ t ++ cl)).flatten ++ sfx))) := by
      simp [List.append_assoc]
    rw [hshape, jsMatchAll_cons_some htm]
    rw [ih (fun x hx => hcells x (List.mem_cons_of_mem t hx))]
    rfl

/-- Replacing the tags of one full `op text cl` block yields the text. -/
theorem jsReplaceAll_block (opens closes : List (List Char)) (dotAll : Bool)
    (op cl t : List Char)
    (hcalts : ∀ a ∈ closes, tagLike a)
    (hfop : ∀ r, findAlt opens (op ++ r) = some op)
    (hfcl : ∀ r, findAlt closes (cl ++ r) = some cl)
    (hclh : cl.head? = some '<')
    (htne : t ≠ []) (htok : ∀ c ∈ t, dotAll = true ∨ c ≠ '\n')
    (htinf : ∀ a ∈ closes, ¬ a <:+: t) :
    jsReplaceAll opens closes dotAll (op ++ t ++ cl) = t := by
  have hf : findAlt closes cl = some cl := by
    have := hfcl []
    rwa [List.append_nil] at this
  have hclrest : ∀ (c : Char), cl.head? = some c → c = '<' := by
    intro c hc
    rw [hclh] at hc
    exact (Option.some.inj hc).symm
  have hlz : lazyUpto closes dotAll (t ++ cl) = some (t, cl, []) := by
    have h1 := @lazyUpto_exact closes dotAll t cl cl htne htok hf
      (fun v hv hlen hne =>
        find_prefix_none closes t v cl hcalts htinf hclrest hv hne)
    rwa [List.drop_length] at h1
  have htm : tryMatchAt opens closes dotAll (op ++ (t ++ cl)) =
      some (op ++ t ++ cl, t, []) := by
    unfold tryMatchAt
    rw [hfop]
    simp only [List.drop_left, hlz]
  rw [show op ++ t ++ cl = op ++ (t ++ cl) from by simp [List.append_assoc],
    jsReplaceAll_cons_some htm]
  simp [jsReplaceAll, replF]

/-! ### Concrete facts about the export tag alternatives -/

/-- A pattern at least as long as `b` that differs from `b` on the first
`|a|` characters cannot match at the start of `b ++ r`. -/
theorem isPrefixOf_append_eq_false {a b : List Char} (r : List Char)
    (hlen : a.length ≤ b.length) (hne : a ≠ b.take a.length) :
    a.isPrefixOf (b ++ r) = false := by
  cases h : a.isPrefixOf (b ++ r) with
  | false => rfl
  | true =>
    exfalso
    have h1 := List.prefix_iff_eq_take.mp (List.isPrefixOf_iff_prefix.mp h)
    rw [List.take_append_of_le_length hlen] at h1
    exact hne h1

theorem findAlt_singleton_self (a r : List Char) :
    findAlt [a] (a ++ r) = some a := by
  unfold findAlt
  rw [@List.find?_cons_of_pos _ (fun x => x.isPrefixOf (a ++ r)) a []
    (List.isPrefixOf_iff_prefix.mpr (List.prefix_append a r))]

theorem findAlt_cellOpens_th (r : List Char) :
    findAlt cellOpens (chars "<th>" ++ r) = some (chars "<th>") := by
  unfold findAlt cellOpens
  rw [@List.find?_cons_of_pos _ (fun x => x.isPrefixOf (chars "<th>" ++ r))
    (chars "<th>") [chars "<td>"]
    (List.isPrefixOf_iff_prefix.mpr (List.prefix_append _ r))]

theorem findAlt_cellOpens_td (r : List Char) :
    findAlt cellOpens (chars "<td>" ++ r) = some (chars "<td>") := by
  unfold findAlt cellOpens
  have hneg : ¬ (chars "<th>").isPrefixOf (chars "<td>" ++ r) = true := by
    rw [isPrefixOf_append_eq_false r (by decide) (by decide)]
    simp
  rw [@List.find?_cons_of_neg _ (fun x => x.isPrefixOf (chars "<td>" ++ r))
    (chars "<th>") [chars "<td>"] hneg,
    @List.find?_cons_of_pos _ (fun x => x.isPrefixOf (chars "<td>" ++ r))
    (chars "<td>") []
    (List.isPrefixOf_iff_prefix.mpr (List.prefix_append _ r))]

theorem findAlt_cellCloses_th (r : List Char) :
    findAlt cellCloses (chars "</th>" ++ r) = some (chars "</th>") := by
  unfold findAlt cellCloses
  rw [@List.find?_cons_of_pos _ (fun x => x.isPrefixOf (chars "</th>" ++ r))
    (chars "</th>") [chars "</td>"]
    (List.isPrefixOf_iff_prefix.mpr (List.prefix_append _ r))]

theorem findAlt_cellCloses_td (r : List Char) :
    findAlt cellCloses (chars "</td>" ++ r) = some (chars "</td>") := by
  unfold findAlt cellCloses
  have hneg : ¬ (chars "</th>").isPrefixOf (chars "</td>" ++ r) = true := by
    rw [isPrefixOf_append_eq_false r (by decide) (by decide)]
    simp
  rw [@List.find?_cons_of_neg _ (fun x => x.isPrefixOf (chars "</td>" ++ r))
    (chars "</th>") [chars "</td>"] hneg,
    @List.find?_cons_of_pos _ (fun x => x.isPrefixOf (chars "</td>" ++ r))
    (chars "</td>") []
    (List.isPrefixOf_iff_prefix.mpr (List.prefix_append _ r))]

/-- Heads of appends of nonempty lists. -/
theorem head?_append_of_cons {x : List Char} {c : Char} (y : List Char)
    (h : x.head? = some c) : (x ++ y).head? = some c := by
  cases x with
  | nil => simp at h
  | cons c0 w =>
    simp only [List.head?_cons, Option.some.injEq] at h
    simp [List.cons_append, List.head?_cons, h]

/-- A tag cannot occur inside a single well-formed block `op ++ t ++ cl`
when it occurs in none of the three parts. -/
theorem not_infix_block {a op cl t : List Char} (ha : tagLike a)
    (haop : ¬ a <:+: op) (hacl : ¬ a <:+: cl) (hat : ¬ a <:+: t)
    (hclh : cl.head? = some '<')
    (hstr : ∀ n, n < a.length → 0 < n → ¬ (a.take n <:+ op)) :
    ¬ a <:+: op ++ t ++ cl := by
  have h1 : ¬ a <:+: t ++ cl :=
    tag_not_infix_append_head ha
      (fun c hc => by rw [hclh] at hc; exact (Option.some.inj hc).symm)
      hat hacl
  have h2 : ¬ a <:+: op ++ (t ++ cl) := not_infix_append_take hstr haop h1
  intro h
  exact h2 (by rwa [List.append_assoc] at h)

/-- A tag-like pattern cannot occur in a concatenation of blocks in which it
does not occur and which all start with `<`. -/
theorem not_infix_flatten {a : List Char} (ha : tagLike a) :
    ∀ (blocks : List (List Char)),
      (∀ b ∈ blocks, ¬ a <:+: b ∧ b.head? = some '<') →
      ¬ a <:+: blocks.flatten := by
  intro blocks
  induction blocks with
  | nil =>
    intro _ h
    simp only [List.flatten_nil] at h
    rw [List.infix_nil] at h
    exact ha.1 h
  | cons b bs ih =>
    intro h
    simp only [List.flatten_cons]
    have hhead : ∀ c, bs.flatten.head? = some c → c = '<' := by
      intro c hc
      cases bs with
      | nil => simp at hc
      | cons b' bs' =>
        have hb' := (h b' (List.mem_cons_of_mem b (List.mem_cons_self b' bs'))).2
        simp only [List.flatten_cons] at hc
        rw [head?_append_of_cons _ hb'] at hc
        exact (Option.some.inj hc).symm
    exact tag_not_infix_append_head ha hhead (h b (List.mem_cons_self b bs)).1
      (ih (fun x hx => h x (List.mem_cons_of_mem b hx)))

/-- Characters of a trimmed string come from the original string. -/
theorem mem_trimChars {c : Char} {l : List Char} (h : c ∈ trimChars l) :
    c ∈ l := by
  unfold trimChars at h
  rw [List.mem_reverse] at h
  have h1 := (List.dropWhile_sublist _).mem h
  rw [List.mem_reverse] at h1
  exact (List.dropWhile_sublist _).mem h1

/-- Fresh-key object assignment appends. -/
theorem jsObjAssign_fresh {obj : List (List Char × List Char)}
    {k : List Char} (v : List Char) (h : ∀ kv ∈ obj, kv.1 ≠ k) :
    jsObjAssign obj k v = obj ++ [(k, v)] := by
  induction obj with
  | nil => rfl
  | cons kv rest ih =>
    have hkv : ¬ (kv.1 == k) = true := by
      intro hbeq
      exact h kv (List.mem_cons_self kv rest) (eq_of_beq hbeq)
    rw [jsObjAssign, if_neg hkv, List.cons_append,
      ih (fun x hx => h x (List.mem_cons_of_mem kv hx))]

/-- The header `forEach` loop appends one binding per header when the headers
are distinct and fresh w.r.t. the accumulated object. -/
theorem buildRowObjectGo_spec (values : List (List Char)) :
    ∀ (hs : List (List Char)) (i : Nat) (obj : List (List Char × List Char)),
      hs.Nodup → (∀ h ∈ hs, ∀ kv ∈ obj, kv.1 ≠ h) →
      buildRowObjectGo values i hs obj = obj ++ zipValsFrom values i hs := by
  intro hs
  induction hs with
  | nil => intro i obj _ _; simp [buildRowObjectGo, zipValsFrom]
  | cons h0 hs ih =>
    intro i obj hnd hfresh
    rw [List.nodup_cons] at hnd
    show buildRowObjectGo values (i + 1) hs
        (jsObjAssign obj h0 (values.getD i [])) = _
    rw [jsObjAssign_fresh _ (hfresh h0 (List.mem_cons_self h0 hs))]
    rw [ih (i + 1) _ hnd.2 ?_]
    · simp [zipValsFrom, List.append_assoc]
    · intro h hh kv hkv
      rcases List.mem_append.mp hkv with hkv | hkv
      · exact hfresh h (List.mem_cons_of_mem h0 hh) kv hkv
      · simp only [List.mem_singleton] at hkv
        rw [hkv]
        intro hc
        have hc' : h0 = h := hc
        exact hnd.1 (hc' ▸ hh)

/-- `zipValsFrom` from index 0 is `zip` when the lengths agree. -/
theorem zipValsFrom_eq_zip (values : List (List Char)) :
    ∀ (hs : List (List Char)) (i : Nat), i + hs.length ≤ values.length →
      zipValsFrom values i hs = hs.zip (values.drop i) := by
  intro hs
  induction hs with
  | nil => intro i _; simp [zipValsFrom]
  | cons h0 hs ih =>
    intro i hlen
    simp only [List.length_cons] at hlen
    have hi : i < values.length := by omega
    rw [zipValsFrom, ih (i + 1) (by omega),
      List.drop_eq_getElem_cons hi, List.zip_cons_cons]
    congr 1
    rw [List.getD_eq_getElem?_getD, List.getElem?_eq_getElem hi]
    rfl

/-- One step of `unescQuotes` on a non-quote head. -/
theorem unescQuotes_cons_ne {c : Char} (hc : ¬ c = '"') (x : List Char) :
    unescQuotes (c :: x) = c :: unescQuotes x := by
  cases x with
  | nil => simp [unescQuotes]
  | cons c2 r2 =>
    by_cases h2 : c2 = '"'
    · subst h2
      simp [unescQuotes, hc]
    · simp [unescQuotes, hc, h2]

/-- Unquoting a CSV field recovers the exact cell text. -/
theorem csvUnquote_csvQuote (t : List Char) :
    csvUnquote (csvQuote t) = t := by
  have hesc : ∀ (l : List Char), unescQuotes (escQuotes l) = l := by
    intro l
    induction l with
    | nil => rfl
    | cons c r ih =>
      by_cases hc : c = '"'
      · subst hc
        rw [show escQuotes ('"' :: r) = '"' :: '"' :: escQuotes r from by
          simp [escQuotes]]
        rw [show unescQuotes ('"' :: '"' :: escQuotes r) =
          '"' :: unescQuotes (escQuotes r) from by simp [unescQuotes]]
        rw [ih]
      · rw [show escQuotes (c :: r) = c :: escQuotes r from by
          simp [escQuotes, hc]]
        rw [unescQuotes_cons_ne hc, ih]
  unfold csvUnquote csvQuote
  simp only [List.drop_succ_cons, List.drop_zero]
  rw [List.dropLast_concat]
  exact hesc t

/-! ### Structure of the generated table markup -/

theorem filterMap_ext_mem {α β : Type} (f g : α → Option β) :
    ∀ (l : List α), (∀ a ∈ l, f a = g a) → l.filterMap f = l.filterMap g := by
  intro l
  induction l with
  | nil => intro _; rfl
  | cons a t ih =>
    intro h
    rw [List.filterMap_cons, List.filterMap_cons,
      h a (List.mem_cons_self a t), ih (fun x hx => h x (List.mem_cons_of_mem a hx))]

theorem block_head {op : List Char} {c : Char} (t cl : List Char)
    (h : op.head? = some c) : (op ++ t ++ cl).head? = some c :=
  head?_append_of_cons cl (head?_append_of_cons t h)

theorem flattenBlocks_head {op : List Char} {c : Char} (cl sfx : List Char)
    (hop : op.head? = some c) (hsfx : ∀ d, sfx.head? = some d → d = c)
    (cells : List (List Char)) :
    ∀ d, ((cells.map (fun t => op ++ t ++ cl)).flatten ++ sfx).head? = some d →
      d = c := by
  intro d hd
  cases cells with
  | nil =>
    simp only [List.map_nil, List.flatten_nil, List.nil_append] at hd
    exact hsfx d hd
  | cons t cs =>
    simp only [List.map_cons, List.flatten_cons, List.append_assoc] at hd
    rw [head?_append_of_cons _ hop] at hd
    exact (Option.some.inj hd).symm

theorem headerCellsOf_eq {content r0 : List Char} {rest : List (List Char)}
    (hL : (splitOnChar '\n' content).filter (fun r => trimChars r ≠ []) =
      r0 :: rest) :
    headerCellsOf content = (splitOnChar '|' r0).map trimChars := by
  unfold headerCellsOf
  rw [hL]

theorem dataRowsOf_eq {content r0 : List Char} {rest : List (List Char)}
    (hL : (splitOnChar '\n' content).filter (fun r => trimChars r ≠ []) =
      r0 :: rest) :
    dataRowsOf content = rest.filterMap (fun r =>
      if isSeparatorRow r then none
      else some ((splitOnChar '|' r).map trimChars)) := by
  unfold dataRowsOf
  rw [hL]

theorem rowCellsHtml_eq_wrapCells (op cl r : List Char) :
    rowCellsHtml op cl r = wrapCells op cl ((splitOnChar '|' r).map trimChars) := by
  unfold rowCellsHtml wrapCells
  rw [List.map_map]
  rfl

/-- Every cell text of the displayed table is newline-free: cells come from
splitting a content line (itself newline-free) on `|` and trimming. -/
theorem exportCells_no_newline (content : List Char) :
    ∀ row ∈ headerCellsOf content :: dataRowsOf content, ∀ t ∈ row,
      '\n' ∉ t := by
  intro row hrow t ht hnl
  have hline : ∃ r, r ∈ splitOnChar '\n' content ∧
      t ∈ (splitOnChar '|' r).map trimChars := by
    rcases List.mem_cons.mp hrow with hrow | hrow
    · subst hrow
      cases hL : (splitOnChar '\n' content).filter (fun r => trimChars r ≠ []) with
      | nil => rw [headerCellsOf, hL] at ht; simp at ht
      | cons r0 rest =>
        refine ⟨r0, ?_, ?_⟩
        · have : r0 ∈ (splitOnChar '\n' content).filter
              (fun r => trimChars r ≠ []) := by
            rw [hL]; exact List.mem_cons_self r0 rest
          exact List.mem_of_mem_filter this
        · rwa [headerCellsOf_eq hL] at ht
    · cases hL : (splitOnChar '\n' content).filter (fun r => trimChars r ≠ []) with
      | nil => rw [dataRowsOf, hL] at hrow; simp at hrow
      | cons r0 rest =>
        rw [dataRowsOf_eq hL] at hrow
        obtain ⟨r, hr, hfr⟩ := List.mem_filterMap.mp hrow
        by_cases hsep : isSeparatorRow r = true
        · rw [if_pos hsep] at hfr; exact absurd hfr (by simp)
        · rw [if_neg hsep] at hfr
          refine ⟨r, ?_, ?_⟩
          · have : r ∈ (splitOnChar '\n' content).filter
                (fun r => trimChars r ≠ []) := by
              rw [hL]; exact List.mem_cons_of_mem r0 hr
            exact List.mem_of_mem_filter this
          · rw [Option.some.inj hfr]
            exact ht
  obtain ⟨r, hr, ht'⟩ := hline
  obtain ⟨p, hp, hpt⟩ := List.mem_map.mp ht'
  rw [← hpt] at hnl
  have hnp : '\n' ∈ p := mem_trimChars hnl
  have hnr : '\n' ∈ r := mem_of_mem_splitOnChar '|' r p hp hnp
  exact not_mem_splitOnChar '\n' content r hr hnr

/-- The generated markup is a table prefix, one `<tr>` block per displayed
row (header first), and a table suffix. -/
theorem htmlContentOf_decomp {content r0 : List Char} {rest : List (List Char)}
    (hpipe : content.contains '|' = true)
    (hL : (splitOnChar '\n' content).filter (fun r => trimChars r ≠ []) =
      r0 :: rest) :
    htmlContentOf content =
      chars "<table class=\"stats-table\">" ++
      (((wrapCells (chars "<th>") (chars "</th>") (headerCellsOf content) ::
        (dataRowsOf content).map (wrapCells (chars "<td>") (chars "</td>"))).map
        (fun t => chars "<tr>" ++ t ++ chars "</tr>")).flatten ++
        chars "</table>") := by
  have hflt : ((rest.filterMap (fun r =>
        if isSeparatorRow r then none
        else some ((splitOnChar '|' r).map trimChars))).map
          (wrapCells (chars "<td>") (chars "</td>"))).map
          (fun t => chars "<tr>" ++ t ++ chars "</tr>") =
      rest.filterMap (fun r =>
        if isSeparatorRow r then none
        else some (chars "<tr>" ++
          rowCellsHtml (chars "<td>") (chars "</td>") r ++ chars "</tr>")) := by
    rw [List.map_map, List.map_filterMap]
    apply filterMap_ext_mem
    intro r _
    by_cases hsep : isSeparatorRow r = true
    · simp [hsep]
    · simp only [hsep, Bool.false_eq_true, if_false, Option.map_some',
        Function.comp_apply, if_neg, rowCellsHtml_eq_wrapCells]
  unfold htmlContentOf
  rw [if_pos hpipe, hL, headerCellsOf_eq hL, dataRowsOf_eq hL]
  simp only [List.map_cons, List.flatten_cons]
  rw [hflt, rowCellsHtml_eq_wrapCells]
  simp [List.append_assoc]

theorem rowOpens_tagLike : ∀ a ∈ rowOpens, tagLike a := by
  intro a ha
  rw [show a = chars "<tr>" from by simpa [rowOpens] using ha]
  exact ⟨by decide, by decide, by decide⟩

theorem rowCloses_tagLike : ∀ a ∈ rowCloses, tagLike a := by
  intro a ha
  rw [show a = chars "</tr>" from by simpa [rowCloses] using ha]
  exact ⟨by decide, by decide, by decide⟩

theorem cellOpens_tagLike : ∀ a ∈ cellOpens, tagLike a := by
  intro a ha
  rcases (by simpa [cellOpens] using ha :
      a = chars "<th>" ∨ a = chars "<td>") with h | h <;>
    · rw [h]; exact ⟨by decide, by decide, by decide⟩

theorem cellCloses_tagLike : ∀ a ∈ cellCloses, tagLike a := by
  intro a ha
  rcases (by simpa [cellCloses] using ha :
      a = chars "</th>" ∨ a = chars "</td>") with h | h <;>
    · rw [h]; exact ⟨by decide, by decide, by decide⟩

theorem thOpens_tagLike : ∀ a ∈ thOpens, tagLike a := by
  intro a ha
  rw [show a = chars "<th>" from by simpa [thOpens] using ha]
  exact ⟨by decide, by decide, by decide⟩

theorem thCloses_tagLike : ∀ a ∈ thCloses, tagLike a := by
  intro a ha
  rw [show a = chars "</th>" from by simpa [thCloses] using ha]
  exact ⟨by decide, by decide, by decide⟩

theorem tdOpens_tagLike : ∀ a ∈ tdOpens, tagLike a := by
  intro a ha
  rw [show a = chars "<td>" from by simpa [tdOpens] using ha]
  exact ⟨by decide, by decide, by decide⟩

theorem tdCloses_tagLike : ∀ a ∈ tdCloses, tagLike a := by
  intro a ha
  rw [show a = chars "</td>" from by simpa [tdCloses] using ha]
  exact ⟨by decide, by decide, by decide⟩

/-- The row regex of both exports extracts exactly the generated `<tr>`
blocks from the table markup. -/
theorem trMatches_table (rcs : List (List Char))
    (hne : ∀ t ∈ rcs, t ≠ [])
    (hinf : ∀ t ∈ rcs, ¬ (chars "</tr>") <:+: t) :
    trMatches (chars "<table class=\"stats-table\">" ++
      ((rcs.map (fun t => chars "<tr>" ++ t ++ chars "</tr>")).flatten ++
        chars "</table>")) =
      rcs.map (fun t => chars "<tr>" ++ t ++ chars "</tr>") := by
  unfold trMatches
  rw [jsMatchAll_junk rowOpens rowCloses true (chars "<table class=\"stats-table\">") _
    rowOpens_tagLike (by decide)
    (flattenBlocks_head (chars "</tr>") (chars "</table>") (by decide) (fun d hd => by
      rw [show (chars "</table>").head? = some '<' from by decide] at hd
      exact (Option.some.inj hd).symm) rcs)]
  refine jsMatchAll_blocks rowOpens rowCloses true (chars "<tr>") (chars "</tr>")
    (chars "</table>") rowCloses_tagLike rowOpens_tagLike
    (fun r => findAlt_singleton_self (chars "<tr>") r)
    (fun r => findAlt_singleton_self (chars "</tr>") r)
    (by decide) (by decide) rcs ?_
  intro t ht
  refine ⟨hne t ht, fun c _ => Or.inl rfl, ?_⟩
  intro a ha
  have ha' : a = chars "</tr>" := by
    simp only [rowCloses, List.mem_singleton] at ha
    exact ha
  rw [ha']
  exact hinf t ht

/-- A cell regex extracts exactly the generated cell blocks from one `<tr>`
row of the table markup. -/
theorem cellScan_row (opens closes : List (List Char)) (op cl : List Char)
    (hcalts : ∀ a ∈ closes, tagLike a) (halts : ∀ a ∈ opens, tagLike a)
    (hfop : ∀ r, findAlt opens (op ++ r) = some op)
    (hfcl : ∀ r, findAlt closes (cl ++ r) = some cl)
    (hoph : op.head? = some '<') (hclh : cl.head? = some '<')
    (hjunk : ∀ a ∈ opens, ¬ a <:+: chars "<tr>")
    (hsfx : ∀ a ∈ opens, ¬ a <:+: chars "</tr>")
    (cells : List (List Char))
    (hcells : ∀ t ∈ cells, t ≠ [] ∧ '\n' ∉ t ∧ ∀ a ∈ closes, ¬ a <:+: t) :
    jsMatchAll opens closes false
      (chars "<tr>" ++ wrapCells op cl cells ++ chars "</tr>") =
      cells.map (fun t => op ++ t ++ cl) := by
  unfold wrapCells
  rw [List.append_assoc]
  rw [jsMatchAll_junk opens closes false (chars "<tr>") _ halts hjunk
    (flattenBlocks_head cl (chars "</tr>") hoph (fun d hd => by
      rw [show (chars "</tr>").head? = some '<' from by decide] at hd
      exact (Option.some.inj hd).symm) cells)]
  exact jsMatchAll_blocks opens closes false op cl (chars "</tr>") hcalts halts
    hfop hfcl hclh hsfx cells
    (fun t ht => ⟨(hcells t ht).1,
      fun c hc => Or.inr (fun he => (hcells t ht).2.1 (he ▸ hc)),
      (hcells t ht).2.2⟩)

/-- `convertToCSV`'s tag strip on a header cell block. -/
theorem stripCellTags_th {t : List Char} (htne : t ≠ []) (hnl : '\n' ∉ t)
    (hth : ¬ (chars "</th>") <:+: t) (htd : ¬ (chars "</td>") <:+: t) :
    stripCellTags (chars "<th>" ++ t ++ chars "</th>") = t := by
  unfold stripCellTags
  refine jsReplaceAll_block cellOpens cellCloses false (chars "<th>")
    (chars "</th>") t cellCloses_tagLike findAlt_cellOpens_th findAlt_cellCloses_th
    (by decide) htne (fun c hc => Or.inr (fun he => hnl (he ▸ hc))) ?_
  intro a ha
  rcases List.mem_cons.mp ha with ha | ha
  · rw [ha]; exact hth
  · have ha' : a = chars "</td>" := by simpa using ha
    rw [ha']; exact htd

/-- `convertToCSV`'s tag strip on a data cell block. -/
theorem stripCellTags_td {t : List Char} (htne : t ≠ []) (hnl : '\n' ∉ t)
    (hth : ¬ (chars "</th>") <:+: t) (htd : ¬ (chars "</td>") <:+: t) :
    stripCellTags (chars "<td>" ++ t ++ chars "</td>") = t := by
  unfold stripCellTags
  refine jsReplaceAll_block cellOpens cellCloses false (chars "<td>")
    (chars "</td>") t cellCloses_tagLike findAlt_cellOpens_td findAlt_cellCloses_td
    (by decide) htne (fun c hc => Or.inr (fun he => hnl (he ▸ hc))) ?_
  intro a ha
  rcases List.mem_cons.mp ha with ha | ha
  · rw [ha]; exact hth
  · have ha' : a = chars "</td>" := by simpa using ha
    rw [ha']; exact htd

/-- `convertToJSON`'s header tag strip on a header cell block. -/
theorem stripThTags_block {t : List Char} (htne : t ≠ []) (hnl : '\n' ∉ t)
    (hth : ¬ (chars "</th>") <:+: t) :
    stripThTags (chars "<th>" ++ t ++ chars "</th>") = t := by
  unfold stripThTags
  refine jsReplaceAll_block thOpens thCloses false (chars "<th>")
    (chars "</th>") t thCloses_tagLike
    (fun r => findAlt_singleton_self (chars "<th>") r)
    (fun r => findAlt_singleton_self (chars "</th>") r)
    (by decide) htne (fun c hc => Or.inr (fun he => hnl (he ▸ hc))) ?_
  intro a ha
  have ha' : a = chars "</th>" := by simpa [thCloses] using ha
  rw [ha']
  exact hth

/-- `convertToJSON`'s value tag strip on a data cell block. -/
theorem stripTdTags_block {t : List Char} (htne : t ≠ []) (hnl : '\n' ∉ t)
    (htd : ¬ (chars "</td>") <:+: t) :
    stripTdTags (chars "<td>" ++ t ++ chars "</td>") = t := by
  unfold stripTdTags
  refine jsReplaceAll_block tdOpens tdCloses false (chars "<td>")
    (chars "</td>") t tdCloses_tagLike
    (fun r => findAlt_singleton_self (chars "<td>") r)
    (fun r => findAlt_singleton_self (chars "</td>") r)
    (by decide) htne (fun c hc => Or.inr (fun he => hnl (he ▸ hc))) ?_
  intro a ha
  have ha' : a = chars "</td>" := by simpa [tdCloses] using ha
  rw [ha']
  exact htd

theorem lines_of_headerCells_ne {content : List Char}
    (hne : headerCellsOf content ≠ []) :
    ∃ r0 rest, (splitOnChar '\n' content).filter (fun r => trimChars r ≠ []) =
      r0 :: rest := by
  cases hL : (splitOnChar '\n' content).filter (fun r => trimChars r ≠ []) with
  | nil =>
    exfalso
    apply hne
    unfold headerCellsOf
    rw [hL]
  | cons r0 rest => exact ⟨r0, rest, rfl⟩

/-- Every displayed data row has at least one cell (`split("|")` is never
empty). -/
theorem dataRowsOf_rows_ne_nil (content : List Char) :
    ∀ row ∈ dataRowsOf content, row ≠ [] := by
  intro row hrow
  cases hL : (splitOnChar '\n' content).filter (fun r => trimChars r ≠ []) with
  | nil =>
    rw [dataRowsOf, hL] at hrow
    simp at hrow
  | cons r0 rest =>
    rw [dataRowsOf_eq hL] at hrow
    obtain ⟨r, _, hfr⟩ := List.mem_filterMap.mp hrow
    by_cases hsep : isSeparatorRow r = true
    · rw [if_pos hsep] at hfr
      simp at hfr
    · rw [if_neg hsep] at hfr
      rw [← Option.some.inj hfr]
      intro hnil
      have hsp := splitOnChar_ne_nil '|' r
      cases hspl : splitOnChar '|' r with
      | nil => exact hsp hspl
      | cons p ps => rw [hspl] at hnil; simp at hnil

theorem wrapCells_ne_nil {op cl : List Char} (hop : op ≠ [])
    {cells : List (List Char)} (hcells : cells ≠ []) :
    wrapCells op cl cells ≠ [] := by
  cases cells with
  | nil => exact absurd rfl hcells
  | cons t cs =>
    cases op with
    | nil => exact absurd rfl hop
    | cons c w =>
      unfold wrapCells
      simp

/-- `</tr>` cannot occur in a row's cell markup when it occurs in no cell
text. -/
theorem trClose_not_infix_wrap {op cl : List Char} (cells : List (List Char))
    (hoph : op.head? = some '<')
    (haop : ¬ (chars "</tr>") <:+: op) (hacl : ¬ (chars "</tr>") <:+: cl)
    (hclh : cl.head? = some '<')
    (hstr : ∀ n, n < (chars "</tr>").length → 0 < n →
      ¬ ((chars "</tr>").take n <:+ op))
    (hcells : ∀ t ∈ cells, ¬ (chars "</tr>") <:+: t) :
    ¬ (chars "</tr>") <:+: wrapCells op cl cells := by
  unfold wrapCells
  refine not_infix_flatten ⟨by decide, by decide, by decide⟩ _ ?_
  intro b hb
  obtain ⟨t, ht, hbt⟩ := List.mem_map.mp hb
  rw [← hbt]
  exact ⟨not_infix_block ⟨by decide, by decide, by decide⟩ haop hacl
    (hcells t ht) hclh hstr, block_head t cl hoph⟩

theorem filterMap_some_eq_map {α β : Type} (f : α → β) :
    ∀ (l : List α), l.filterMap (fun a => some (f a)) = l.map f := by
  intro l
  induction l with
  | nil => rfl
  | cons a t ih => rw [List.filterMap_cons, List.map_cons, ih]

/-- The row regex applied to the full generated markup: one match per
displayed row, header first. -/
theorem trMatches_htmlContentOf (content : List Char)
    (hpipe : content.contains '|' = true)
    (hne : headerCellsOf content ≠ [])
    (hheader : ∀ t ∈ headerCellsOf content, ¬ (chars "</tr>") <:+: t)
    (hdata : ∀ row ∈ dataRowsOf content, ∀ t ∈ row,
      ¬ (chars "</tr>") <:+: t) :
    trMatches (htmlContentOf content) =
      ((wrapCells (chars "<th>") (chars "</th>") (headerCellsOf content) ::
        (dataRowsOf content).map (wrapCells (chars "<td>") (chars "</td>"))).map
        (fun t => chars "<tr>" ++ t ++ chars "</tr>")) := by
  obtain ⟨r0, rest, hL⟩ := lines_of_headerCells_ne hne
  rw [htmlContentOf_decomp hpipe hL]
  refine trMatches_table _ ?_ ?_
  · intro t ht
    rcases List.mem_cons.mp ht with ht | ht
    · rw [ht]
      exact wrapCells_ne_nil (by decide) hne
    · obtain ⟨row, hrow, hrt⟩ := List.mem_map.mp ht
      rw [← hrt]
      exact wrapCells_ne_nil (by decide) (dataRowsOf_rows_ne_nil content row hrow)
  · intro t ht
    rcases List.mem_cons.mp ht with ht | ht
    · rw [ht]
      refine trClose_not_infix_wrap _ (by decide) (by decide) (by decide)
        (by decide) ?_ hheader
      simp only [show (chars "</tr>").length = 5 from by decide]
      decide
    · obtain ⟨row, hrow, hrt⟩ := List.mem_map.mp ht
      rw [← hrt]
      refine trClose_not_infix_wrap _ (by decide) (by decide) (by decide)
        (by decide) ?_ (hdata row hrow)
      simp only [show (chars "</tr>").length = 5 from by decide]
      decide

/-- One header row of `convertToCSV`: the quoted cell texts joined with
commas. -/
theorem csvRow_wrap_th (cells : List (List Char)) (hcne : cells ≠ [])
    (hsafe : ∀ t ∈ cells, SafeCell t) (hnl : ∀ t ∈ cells, '\n' ∉ t) :
    csvRow (chars "<tr>" ++ wrapCells (chars "<th>") (chars "</th>") cells ++
      chars "</tr>") = joinSep [','] (cells.map csvQuote) := by
  have hscan : cellMatches (chars "<tr>" ++
      wrapCells (chars "<th>") (chars "</th>") cells ++ chars "</tr>") =
      cells.map (fun t => chars "<th>" ++ t ++ chars "</th>") := by
    unfold cellMatches
    refine cellScan_row cellOpens cellCloses (chars "<th>") (chars "</th>")
      cellCloses_tagLike cellOpens_tagLike findAlt_cellOpens_th
      findAlt_cellCloses_th (by decide) (by decide) (by decide) (by decide)
      cells ?_
    intro t ht
    refine ⟨(hsafe t ht).1, hnl t ht, ?_⟩
    intro a ha
    rcases List.mem_cons.mp ha with h | h
    · rw [h]
      exact (hsafe t ht).2.1
    · rw [show a = chars "</td>" from by simpa using h]
      exact (hsafe t ht).2.2.1
  unfold csvRow
  rw [hscan]
  obtain ⟨c0, cs, hc⟩ : ∃ c0 cs, cells = c0 :: cs := by
    cases cells with
    | nil => exact absurd rfl hcne
    | cons c0 cs => exact ⟨c0, cs, rfl⟩
  subst hc
  simp only [List.map_cons]
  refine congrArg (joinSep [',']) ?_
  rw [List.map_map]
  congr 1
  · exact congrArg csvQuote (stripCellTags_th (hsafe c0 (List.mem_cons_self c0 cs)).1
      (hnl c0 (List.mem_cons_self c0 cs))
      (hsafe c0 (List.mem_cons_self c0 cs)).2.1
      (hsafe c0 (List.mem_cons_self c0 cs)).2.2.1)
  · apply List.map_congr_left
    intro t ht
    simp only [Function.comp_apply]
    exact congrArg csvQuote (stripCellTags_th (hsafe t (List.mem_cons_of_mem c0 ht)).1
      (hnl t (List.mem_cons_of_mem c0 ht))
      (hsafe t (List.mem_cons_of_mem c0 ht)).2.1
      (hsafe t (List.mem_cons_of_mem c0 ht)).2.2.1)

/-- One data row of `convertToCSV`: the quoted cell texts joined with
commas. -/
theorem csvRow_wrap_td (cells : List (List Char)) (hcne : cells ≠ [])
    (hsafe : ∀ t ∈ cells, SafeCell t) (hnl : ∀ t ∈ cells, '\n' ∉ t) :
    csvRow (chars "<tr>" ++ wrapCells (chars "<td>") (chars "</td>") cells ++
      chars "</tr>") = joinSep [','] (cells.map csvQuote) := by
  have hscan : cellMatches (chars "<tr>" ++
      wrapCells (chars "<td>") (chars "</td>") cells ++ chars "</tr>") =
      cells.map (fun t => chars "<td>" ++ t ++ chars "</td>") := by
    unfold cellMatches
    refine cellScan_row cellOpens cellCloses (chars "<td>") (chars "</td>")
      cellCloses_tagLike cellOpens_tagLike findAlt_cellOpens_td
      findAlt_cellCloses_td (by decide) (by decide) (by decide) (by decide)
      cells ?_
    intro t ht
    refine ⟨(hsafe t ht).1, hnl t ht, ?_⟩
    intro a ha
    rcases List.mem_cons.mp ha with h | h
    · rw [h]
      exact (hsafe t ht).2.1
    · rw [show a = chars "</td>" from by simpa using h]
      exact (hsafe t ht).2.2.1
  unfold csvRow
  rw [hscan]
  obtain ⟨c0, cs, hc⟩ : ∃ c0 cs, cells = c0 :: cs := by
    cases cells with
    | nil => exact absurd rfl hcne
    | cons c0 cs => exact ⟨c0, cs, rfl⟩
  subst hc
  simp only [List.map_cons]
  refine congrArg (joinSep [',']) ?_
  rw [List.map_map]
  congr 1
  · exact congrArg csvQuote (stripCellTags_td (hsafe c0 (List.mem_cons_self c0 cs)).1
      (hnl c0 (List.mem_cons_self c0 cs))
      (hsafe c0 (List.mem_cons_self c0 cs)).2.1
      (hsafe c0 (List.mem_cons_self c0 cs)).2.2.1)
  · apply List.map_congr_left
    intro t ht
    simp only [Function.comp_apply]
    exact congrArg csvQuote (stripCellTags_td (hsafe t (List.mem_cons_of_mem c0 ht)).1
      (hnl t (List.mem_cons_of_mem c0 ht))
      (hsafe t (List.mem_cons_of_mem c0 ht)).2.1
      (hsafe t (List.mem_cons_of_mem c0 ht)).2.2.1)

/-- One data row of `convertToJSON`: the row object pairs the headers with
the row's cell texts in order. -/
theorem jsonRow_wrap_td (headers cells : List (List Char)) (hcne : cells ≠ [])
    (hsafe : ∀ t ∈ cells, SafeCell t) (hnl : ∀ t ∈ cells, '\n' ∉ t)
    (hnodup : headers.Nodup) (hlen : headers.length ≤ cells.length) :
    jsonRow headers (chars "<tr>" ++
      wrapCells (chars "<td>") (chars "</td>") cells ++ chars "</tr>") =
      some (headers.zip cells) := by
  have hscan : jsMatchAll tdOpens tdCloses false (chars "<tr>" ++
      wrapCells (chars "<td>") (chars "</td>") cells ++ chars "</tr>") =
      cells.map (fun t => chars "<td>" ++ t ++ chars "</td>") := by
    refine cellScan_row tdOpens tdCloses (chars "<td>") (chars "</td>")
      tdCloses_tagLike tdOpens_tagLike
      (fun r => findAlt_singleton_self (chars "<td>") r)
      (fun r => findAlt_singleton_self (chars "</td>") r)
      (by decide) (by decide) (by decide) (by decide) cells ?_
    intro t ht
    refine ⟨(hsafe t ht).1, hnl t ht, ?_⟩
    intro a ha
    rw [show a = chars "</td>" from by simpa [tdCloses] using ha]
    exact (hsafe t ht).2.2.1
  have hvals : (cells.map (fun t => chars "<td>" ++ t ++ chars "</td>")).map
      stripTdTags = cells := by
    rw [List.map_map]
    have : ∀ t ∈ cells, (stripTdTags ∘
        (fun t => chars "<td>" ++ t ++ chars "</td>")) t = id t := by
      intro t ht
      simp only [Function.comp_apply, id]
      exact stripTdTags_block (hsafe t ht).1 (hnl t ht) (hsafe t ht).2.2.1
    rw [List.map_congr_left this, List.map_id]
  unfold jsonRow
  rw [hscan]
  obtain ⟨c0, cs, hc⟩ : ∃ c0 cs, cells = c0 :: cs := by
    cases cells with
    | nil => exact absurd rfl hcne
    | cons c0 cs => exact ⟨c0, cs, rfl⟩
  subst hc
  simp only [List.map_cons]
  rw [← List.map_cons stripTdTags (chars "<td>" ++ c0 ++ chars "</td>")
    (List.map (fun t => chars "<td>" ++ t ++ chars "</td>") cs),
    ← List.map_cons (fun t => chars "<td>" ++ t ++ chars "</td>") c0 cs,
    hvals]
  rw [buildRowObjectGo_spec (c0 :: cs) headers 0 [] hnodup
    (fun h _ kv hkv => absurd hkv (List.not_mem_nil kv))]
  rw [List.nil_append, zipValsFrom_eq_zip (c0 :: cs) headers 0 (by omega),
    List.drop_zero]

/-- `convertToCSV` on the generated markup renders the displayed cell grid:
one line per displayed row, each a comma-joined list of quoted cell texts. -/
theorem convertToCSV_html (content : List Char)
    (hpipe : content.contains '|' = true)
    (hne : headerCellsOf content ≠ [])
    (hheader : ∀ t ∈ headerCellsOf content, SafeCell t)
    (hdata : ∀ row ∈ dataRowsOf content, ∀ t ∈ row, SafeCell t) :
    convertToCSV (htmlContentOf content) =
      joinSep ['\n'] ((headerCellsOf content :: dataRowsOf content).map
        (fun row => joinSep [','] (row.map csvQuote))) := by
  have hnlH : ∀ t ∈ headerCellsOf content, '\n' ∉ t :=
    fun t ht => exportCells_no_newline content _ (List.mem_cons_self _ _) t ht
  have hnlD : ∀ row ∈ dataRowsOf content, ∀ t ∈ row, '\n' ∉ t :=
    fun row hrow => exportCells_no_newline content row
      (List.mem_cons_of_mem _ hrow)
  have htr := trMatches_htmlContentOf content hpipe hne
    (fun t ht => (hheader t ht).2.2.2)
    (fun row hrow t ht => (hdata row hrow t ht).2.2.2)
  unfold convertToCSV
  rw [htr]
  simp only [List.map_cons]
  refine congrArg (joinSep ['\n']) ?_
  congr 1
  · exact csvRow_wrap_th (headerCellsOf content) hne hheader hnlH
  · rw [List.map_map, List.map_map]
    apply List.map_congr_left
    intro row hrow
    simp only [Function.comp_apply]
    exact csvRow_wrap_td row (dataRowsOf_rows_ne_nil content row hrow)
      (hdata row hrow) (hnlD row hrow)

/-- `convertToJSONRecords` on the generated markup renders the displayed cell
grid: one record per data row, pairing each header with the corresponding
cell text. -/
theorem convertToJSONRecords_html (content : List Char)
    (hpipe : content.contains '|' = true)
    (hne : headerCellsOf content ≠ [])
    (hheader : ∀ t ∈ headerCellsOf content, SafeCell t)
    (hdata : ∀ row ∈ dataRowsOf content, ∀ t ∈ row, SafeCell t)
    (hnodup : (headerCellsOf content).Nodup)
    (hlen : ∀ row ∈ dataRowsOf content,
      (headerCellsOf content).length ≤ row.length)
    (hdne : dataRowsOf content ≠ []) :
    convertToJSONRecords (htmlContentOf content) =
      (dataRowsOf content).map (fun row => (headerCellsOf content).zip row) := by
  have hnlH : ∀ t ∈ headerCellsOf content, '\n' ∉ t :=
    fun t ht => exportCells_no_newline content _ (List.mem_cons_self _ _) t ht
  have hnlD : ∀ row ∈ dataRowsOf content, ∀ t ∈ row, '\n' ∉ t :=
    fun row hrow => exportCells_no_newline content row
      (List.mem_cons_of_mem _ hrow)
  have hrne : ∀ row ∈ dataRowsOf content, row ≠ [] :=
    dataRowsOf_rows_ne_nil content
  have htr := trMatches_htmlContentOf content hpipe hne
    (fun t ht => (hheader t ht).2.2.2)
    (fun row hrow t ht => (hdata row hrow t ht).2.2.2)
  obtain ⟨h0, hs, hH⟩ : ∃ h0 hs, headerCellsOf content = h0 :: hs := by
    cases hH : headerCellsOf content with
    | nil => exact absurd hH hne
    | cons h0 hs => exact ⟨h0, hs, rfl⟩
  obtain ⟨d0, ds, hD⟩ : ∃ d0 ds, dataRowsOf content = d0 :: ds := by
    cases hD : dataRowsOf content with
    | nil => exact absurd hD hdne
    | cons d0 ds => exact ⟨d0, ds, rfl⟩
  rw [hH] at hheader hnodup hnlH hlen htr
  rw [hD] at hdata hnlD hlen hrne htr
  rw [hH, hD]
  have hscanH : jsMatchAll thOpens thCloses false (chars "<tr>" ++
      wrapCells (chars "<th>") (chars "</th>") (h0 :: hs) ++ chars "</tr>") =
      (h0 :: hs).map (fun t => chars "<th>" ++ t ++ chars "</th>") := by
    refine cellScan_row thOpens thCloses (chars "<th>") (chars "</th>")
      thCloses_tagLike thOpens_tagLike
      (fun r => findAlt_singleton_self (chars "<th>") r)
      (fun r => findAlt_singleton_self (chars "</th>") r)
      (by decide) (by decide) (by decide) (by decide) (h0 :: hs) ?_
    intro t ht
    refine ⟨(hheader t ht).1, hnlH t ht, ?_⟩
    intro a ha
    rw [show a = chars "</th>" from by simpa [thCloses] using ha]
    exact (hheader t ht).2.1
  have hXH : stripThTags (chars "<th>" ++ h0 ++ chars "</th>") ::
      List.map stripThTags
        (List.map (fun t => chars "<th>" ++ t ++ chars "</th>") hs) =
      h0 :: hs := by
    congr 1
    · exact stripThTags_block (hheader h0 (List.mem_cons_self h0 hs)).1
        (hnlH h0 (List.mem_cons_self h0 hs))
        (hheader h0 (List.mem_cons_self h0 hs)).2.1
    · rw [List.map_map]
      have : ∀ t ∈ hs, (stripThTags ∘
          (fun t => chars "<th>" ++ t ++ chars "</th>")) t = id t := by
        intro t ht
        simp only [Function.comp_apply, id]
        exact stripThTags_block (hheader t (List.mem_cons_of_mem h0 ht)).1
          (hnlH t (List.mem_cons_of_mem h0 ht))
          (hheader t (List.mem_cons_of_mem h0 ht)).2.1
      rw [List.map_congr_left this, List.map_id]
  unfold convertToJSONRecords
  rw [htr]
  simp only [List.map_cons, List.length_cons, List.headD_cons,
    List.drop_succ_cons, List.drop_zero]
  rw [if_neg (by omega)]
  rw [hscanH]
  simp only [List.map_cons]
  rw [hXH]
  have hjr0 : jsonRow (h0 :: hs) (chars "<tr>" ++
      wrapCells (chars "<td>") (chars "</td>") d0 ++ chars "</tr>") =
      some ((h0 :: hs).zip d0) :=
    jsonRow_wrap_td (h0 :: hs) d0 (hrne d0 (List.mem_cons_self d0 ds))
      (hdata d0 (List.mem_cons_self d0 ds)) (hnlD d0 (List.mem_cons_self d0 ds))
      hnodup (hlen d0 (List.mem_cons_self d0 ds))
  simp only [List.filterMap_cons, hjr0]
  congr 1
  rw [List.map_map, List.filterMap_map]
  rw [filterMap_ext_mem _ (fun row => some ((h0 :: hs).zip row)) ds ?_]
  · rw [filterMap_some_eq_map]
  · intro row hrow
    simp only [Function.comp_apply]
    exact jsonRow_wrap_td (h0 :: hs) row
      (hrne row (List.mem_cons_of_mem d0 hrow))
      (hdata row (List.mem_cons_of_mem d0 hrow))
      (hnlD row (List.mem_cons_of_mem d0 hrow))
      hnodup (hlen row (List.mem_cons_of_mem d0 hrow))

/-- Claim C1, counterexample: the exports do not round-trip every displayed
table.  For content `"a|b\n|c"` the data row displays as the two cells `""`
and `"c"`, but the empty cell renders as `<td></td>`, and the lazy cell regex
of both exports then matches `<td></td><td>c</td>` as the single cell text
`</td><td>c`: the CSV line for the row is `"</td><td>c"` rather than
`"","c"`, and the JSON record pairs header `a` with `</td><td>c` and header
`b` with `""`, so the cell value `c` is recovered by neither export. -/
theorem claim1_export_round_trip_counterexample :
    headerCellsOf (chars "a|b\n|c") = [chars "a", chars "b"] ∧
    dataRowsOf (chars "a|b\n|c") = [[[], chars "c"]] ∧
    convertToCSV (htmlContentOf (chars "a|b\n|c")) =
      chars "\"a\",\"b\"\n\"</td><td>c\"" ∧
    convertToCSV (htmlContentOf (chars "a|b\n|c")) ≠
      joinSep ['\n'] ((headerCellsOf (chars "a|b\n|c") ::
        dataRowsOf (chars "a|b\n|c")).map
        (fun row => joinSep [','] (row.map csvQuote))) ∧
    convertToJSONRecords (htmlContentOf (chars "a|b\n|c")) =
      [[(chars "a", chars "</td><td>c"), (chars "b", [])]] ∧
    convertToJSONRecords (htmlContentOf (chars "a|b\n|c")) ≠
      (dataRowsOf (chars "a|b\n|c")).map
        (fun row => (headerCellsOf (chars "a|b\n|c")).zip row) := by
  decide

/-- Claim C1, corrected: for a displayed table whose cell texts are nonempty
and contain none of the closing-tag substrings `</th>`, `</td>`, `</tr>`,
whose headers are distinct, and whose data rows have exactly one cell per
header, the CSV export is exactly the displayed grid — one line per row,
each cell quoted with internal quotes doubled, so unquoting recovers every
cell text — and the JSON export is exactly one record per data row pairing
each header with the corresponding cell text. -/
theorem claim1_export_round_trip (content : List Char)
    (hpipe : content.contains '|' = true)
    (hne : headerCellsOf content ≠ [])
    (hheader : ∀ t ∈ headerCellsOf content, SafeCell t)
    (hdata : ∀ row ∈ dataRowsOf content, ∀ t ∈ row, SafeCell t)
    (hnodup : (headerCellsOf content).Nodup)
    (hlen : ∀ row ∈ dataRowsOf content,
      row.length = (headerCellsOf content).length)
    (hdne : dataRowsOf content ≠ []) :
    convertToCSV (htmlContentOf content) =
      joinSep ['\n'] ((headerCellsOf content :: dataRowsOf content).map
        (fun row => joinSep [','] (row.map csvQuote))) ∧
    (∀ row ∈ headerCellsOf content :: dataRowsOf content, ∀ t ∈ row,
      csvUnquote (csvQuote t) = t) ∧
    convertToJSONRecords (htmlContentOf content) =
      (dataRowsOf content).map
        (fun row => (headerCellsOf content).zip row) :=
  ⟨convertToCSV_html content hpipe hne hheader hdata,
   fun _ _ t _ => csvUnquote_csvQuote t,
   convertToJSONRecords_html content hpipe hne hheader hdata hnodup
     (fun row hrow => le_of_eq (hlen row hrow).symm) hdne⟩

/-- Claim C1 witness: the corrected theorem applied to the concrete table
`Author | Commits` over rows `Jane | 7` and `Bob | 3` with a separator
line. -/
theorem claim1_export_round_trip_witness :
    (chars "Author | Commits\n---|---\nJane | 7\nBob | 3").contains '|' = true ∧
    headerCellsOf (chars "Author | Commits\n---|---\nJane | 7\nBob | 3") ≠ [] ∧
    (∀ t ∈ headerCellsOf (chars "Author | Commits\n---|---\nJane | 7\nBob | 3"),
      SafeCell t) ∧
    (∀ row ∈ dataRowsOf (chars "Author | Commits\n---|---\nJane | 7\nBob | 3"),
      ∀ t ∈ row, SafeCell t) ∧
    (headerCellsOf (chars "Author | Commits\n---|---\nJane | 7\nBob | 3")).Nodup ∧
    (∀ row ∈ dataRowsOf (chars "Author | Commits\n---|---\nJane | 7\nBob | 3"),
      row.length = (headerCellsOf
        (chars "Author | Commits\n---|---\nJane | 7\nBob | 3")).length) ∧
    dataRowsOf (chars "Author | Commits\n---|---\nJane | 7\nBob | 3") ≠ [] ∧
    (convertToCSV (htmlContentOf
        (chars "Author | Commits\n---|---\nJane | 7\nBob | 3")) =
      joinSep ['\n'] ((headerCellsOf
          (chars "Author | Commits\n---|---\nJane | 7\nBob | 3") ::
        dataRowsOf (chars "Author | Commits\n---|---\nJane | 7\nBob | 3")).map
        (fun row => joinSep [','] (row.map csvQuote))) ∧
    (∀ row ∈ headerCellsOf (chars "Author | Commits\n---|---\nJane | 7\nBob | 3") ::
        dataRowsOf (chars "Author | Commits\n---|---\nJane | 7\nBob | 3"),
      ∀ t ∈ row, csvUnquote (csvQuote t) = t) ∧
    convertToJSONRecords (htmlContentOf
        (chars "Author | Commits\n---|---\nJane | 7\nBob | 3")) =
      (dataRowsOf (chars "Author | Commits\n---|---\nJane | 7\nBob | 3")).map
        (fun row => (headerCellsOf
          (chars "Author | Commits\n---|---\nJane | 7\nBob | 3")).zip row)) :=
  ⟨by decide, by decide, by decide, by decide, by decide, by decide, by decide,
   claim1_export_round_trip
     (chars "Author | Commits\n---|---\nJane | 7\nBob | 3")
     (by decide) (by decide) (by decide) (by decide) (by decide) (by decide)
     (by decide)⟩

end GitStats